import Mathlib

/-!
Verification of the flogging module-level engine (`common/flogging/modulelevels.go`):
parsing of logging specifications, hierarchical level resolution with a memo
cache, and canonical serialization.  Strings are embedded as `List Char`
(Go strings; all separators involved are single ASCII bytes, so byte indexing
and character indexing agree on every position the code inspects).
-/

/-- Go strings, embedded as lists of characters. -/
abbrev Str := List Char

/-- `strings.Split(s, sep)` for a one-character separator: splits around every
occurrence of `sep`; the empty string yields `[""]`.  (The unreachable `[]`
branch keeps the function total; `splitOn` never returns `[]`.) -/
def splitOn (sep : Char) : Str → List Str
  | [] => [[]]
  | c :: rest =>
    match splitOn sep rest with
    | [] => [[c]]
    | p :: ps => if c = sep then [] :: p :: ps else (c :: p) :: ps

/-- `strings.Join(parts, sep)` for a one-character separator. -/
def joinSep (c : Char) : List Str → Str
  | [] => []
  | [s] => s
  | s :: rest => s ++ c :: joinSep c rest

/-- `strings.LastIndex(s, sep)` for a one-character separator, with `none`
for Go's `-1` (not found). -/
def lastIdx (c : Char) : Str → Option Nat
  | [] => none
  | a :: rest =>
    match lastIdx c rest with
    | some i => some (i + 1)
    | none => if a = c then some 0 else none

/-- `strings.TrimSuffix(s, ".")`: drops one trailing period when present. -/
def trimSuffixDot (s : Str) : Str :=
  if s.getLast? = some '.' then s.dropLast else s

/-- Character class of `loggerNameRegexp`: `[[:alnum:]_#:-]` (ASCII
alphanumerics, underscore, pound sign, colon, dash). -/
def isLoggerChar (c : Char) : Bool :=
  c.isAlphanum || c = '_' || c = '#' || c = ':' || c = '-'

/-- `isValidLoggerName`: matches `loggerNameRegexp`, i.e.
`^[[:alnum:]_#:-]+(\.[[:alnum:]_#:-]+)*$` — one or more period-separated
segments, each a nonempty run of logger characters (periods themselves are
not logger characters, so this is exactly: every `'.'`-split segment is
nonempty and consists of logger characters). -/
def isValidLoggerName (s : Str) : Bool :=
  (splitOn '.' s).all (fun seg => !seg.isEmpty && seg.all isLoggerChar)

/-- Modelled from the spec: the Severity Scale (the repository's level
conversion file is not under `src/`).  An ordered enumeration
`DEBUG < INFO < WARN < ERROR` plus the sentinel `disabled` meaning
"disabled output"; the sentinel is not an operator-assignable spelling. -/
inductive Level
  | debug
  | info
  | warn
  | error
  | disabled
deriving DecidableEq, Repr, Inhabited

/-- The canonical printed name of a level (Go `zapcore.Level.String()`),
lowercase. -/
def Level.toName : Level → Str
  | .debug => ("debug").toList
  | .info => ("info").toList
  | .warn => ("warn").toList
  | .error => ("error").toList
  | .disabled => ("disabled").toList

/-- Modelled from the spec: the recognized severity spellings and the level
each denotes ("case as recognized by the Severity Scale": upper- and
lowercase forms are recognized).  The empty name is not among the recognized
spellings — the spec treats "unrecognized or empty" names uniformly as the
lenient fallback of `NameToLevel`, and distinguishes the empty level name
from "one of the recognized severity spellings". -/
def levelNames : List (Str × Level) :=
  [(("DEBUG").toList, .debug), (("debug").toList, .debug),
   (("INFO").toList, .info), (("info").toList, .info),
   (("WARN").toList, .warn), (("warn").toList, .warn),
   (("WARNING").toList, .warn), (("warning").toList, .warn),
   (("ERROR").toList, Level.error), (("error").toList, Level.error)]

/-- First-match association-list lookup (Go map read). -/
def lookupA : List (Str × Level) → Str → Option Level
  | [], _ => none
  | (k, v) :: rest, key => if k = key then some v else lookupA rest key

/-- Modelled from the spec: name-to-level conversion against the recognized
spellings; `none` when unrecognized. -/
def nameToLevel? (s : Str) : Option Level := lookupA levelNames s

/-- Modelled from the spec: `NameToLevel` — maps a recognized spelling to its
level; an unrecognized or empty name maps to the neutral default (info). -/
def NameToLevel (s : Str) : Level := (nameToLevel? s).getD .info

/-- Modelled from the spec: `IsValidLevel` — true iff `s` is one of the
recognized level spellings. -/
def IsValidLevel (s : Str) : Bool := (nameToLevel? s).isSome

/-- Association lists standing in for Go's `map[string]zapcore.Level`. -/
abbrev SpecMap := List (Str × Level)

/-- Go map assignment `m[k] = v`: the new binding replaces any previous
binding of `k`. -/
def insertA (k : Str) (v : Level) (m : SpecMap) : SpecMap :=
  (k, v) :: m.filter (fun e => e.1 ≠ k)

/-- The keys of an association list are pairwise distinct (always true for
lists built with `insertA`, mirroring a Go map). -/
def KeysNodup (m : SpecMap) : Prop := (m.map Prod.fst).Nodup

/-- Errors returned by `ActivateSpec`; each constructor records the data the
corresponding `errors.Errorf` message interpolates (the full original spec
and the offending segment or logger name). -/
inductive SpecErr
  | badSegment (spec field : Str)
  | noLoggerSpecified (spec field : Str)
  | badLoggerName (spec logger : Str)
deriving DecidableEq, Repr

/-- The `for _, logger := range loggers` loop of `ActivateSpec`: validate
each logger name (after trimming one trailing period) and store the level
under the untrimmed name. -/
def processLoggers (spec : Str) (lvl : Level) (sp : SpecMap) :
    List Str → Except SpecErr SpecMap
  | [] => .ok sp
  | logger :: rest =>
    if isValidLoggerName (trimSuffixDot logger) then
      processLoggers spec lvl (insertA logger lvl sp) rest
    else
      .error (.badLoggerName spec logger)

/-- One iteration of the `for _, field := range strings.Split(spec, ":")`
loop of `ActivateSpec`, acting on the accumulated
`(defaultLevel, specs)` pair. -/
def processField (spec : Str) (acc : Level × SpecMap) (field : Str) :
    Except SpecErr (Level × SpecMap) :=
  match splitOn '=' field with
  | [_] =>
    if field ≠ [] ∧ IsValidLevel field = false then
      .error (.badSegment spec field)
    else
      .ok (NameToLevel field, acc.2)
  | [loggers, lvlStr] =>
    if loggers = [] then
      .error (.noLoggerSpecified spec field)
    else if field ≠ [] ∧ IsValidLevel lvlStr = false then
      .error (.badSegment spec field)
    else
      match processLoggers spec (NameToLevel lvlStr) acc.2 (splitOn ',' loggers) with
      | .ok sp => .ok (acc.1, sp)
      | .error e => .error e
  | _ => .error (.badSegment spec field)

/-- The segment loop of `ActivateSpec`, left to right, stopping at the first
error. -/
def processFields (spec : Str) (acc : Level × SpecMap) :
    List Str → Except SpecErr (Level × SpecMap)
  | [] => .ok acc
  | f :: rest =>
    match processField spec acc f with
    | .ok acc' => processFields spec acc' rest
    | .error e => .error e

/-- The parsing phase of `ActivateSpec`: local `defaultLevel` starts at
info, local `specs` starts empty, then every `':'`-separated segment is
processed. -/
def parseSpec (spec : Str) : Except SpecErr (Level × SpecMap) :=
  processFields spec (Level.info, []) (splitOn ':' spec)

/-- `ModuleLevels` tracks the default level, the resolution cache and the
active overrides. -/
structure ModuleLevels where
  defaultLevel : Level
  levelCache : SpecMap
  specs : SpecMap
deriving DecidableEq, Repr

/-- `DefaultLevel` returns the default logging level. -/
def ModuleLevels.DefaultLevel (m : ModuleLevels) : Level := m.defaultLevel

/-- `ActivateSpec`: parse the spec; on error the receiver is unchanged; on
success the new default and overrides are installed and the cache is
cleared.  The returned pair is (error, state after the call). -/
def ModuleLevels.ActivateSpec (m : ModuleLevels) (spec : Str) :
    Option SpecErr × ModuleLevels :=
  match parseSpec spec with
  | .error e => (some e, m)
  | .ok (d, sp) => (none, ⟨d, [], sp⟩)

/-- The `for` loop of `calculateLevel`, written with explicit fuel: look the
candidate up in the specs; on a miss, truncate at the last period (Go's
`idx <= 0`, i.e. no period or a leading period, falls back to the default).
Every iteration strictly shortens the candidate, so `length + 1` fuel always
suffices (the same measure by which the Go loop terminates); the fuel-0
branch is unreachable from `calculateLevel`. -/
def calcLoop (sp : SpecMap) (dflt : Level) : Nat → Str → Level
  | 0, _ => dflt
  | fuel + 1, candidate =>
    match lookupA sp candidate with
    | some l => l
    | none =>
      match lastIdx '.' candidate with
      | none => dflt
      | some 0 => dflt
      | some idx => calcLoop sp dflt fuel (candidate.take idx)

/-- `calculateLevel` walks the logger name back (starting from
`loggerName + "."`) to find the appropriate level from the current spec. -/
def calculateLevel (sp : SpecMap) (dflt : Level) (loggerName : Str) : Level :=
  calcLoop sp dflt (loggerName.length + 2) (loggerName ++ ['.'])

/-- `cachedLevel`: read the memo cache. -/
def ModuleLevels.cachedLevel (m : ModuleLevels) (loggerName : Str) : Option Level :=
  lookupA m.levelCache loggerName

/-- `Level` returns the effective level for a logger: the cached value when
present, otherwise the freshly calculated value, which is stored in the
cache.  Returns (result, state after the call). -/
def ModuleLevels.level (m : ModuleLevels) (loggerName : Str) :
    Level × ModuleLevels :=
  match m.cachedLevel loggerName with
  | some l => (l, m)
  | none =>
    let l := calculateLevel m.specs m.defaultLevel loggerName
    (l, { m with levelCache := insertA loggerName l m.levelCache })

/-- Byte-lexicographic order on strings (Go `sort.Strings`; for the ASCII
data involved, byte order and code-point order agree). -/
def strLe : Str → Str → Bool
  | [], _ => true
  | _ :: _, [] => false
  | a :: xs, b :: ys =>
    if a.toNat < b.toNat then true
    else if b.toNat < a.toNat then false
    else strLe xs ys

/-- Insertion step of string sorting. -/
def insertSorted (x : Str) : List Str → List Str
  | [] => [x]
  | y :: ys => if strLe x y then x :: y :: ys else y :: insertSorted x ys

/-- `sort.Strings`: sort a list of strings lexicographically (insertion
sort; only the sorted result matters). -/
def sortStrs : List Str → List Str
  | [] => []
  | x :: xs => insertSorted x (sortStrs xs)

/-- One `fmt.Sprintf("%s=%s", k, v)` field of `Spec()`. -/
def renderField (e : Str × Level) : Str := e.1 ++ '=' :: e.2.toName

/-- `Spec` returns the normalized active spec: one `key=level` field per
override, sorted, then the default level's name, all joined with `':'`. -/
def ModuleLevels.Spec (m : ModuleLevels) : Str :=
  joinSep ':' (sortStrs (m.specs.map renderField) ++ [m.defaultLevel.toName])

/-- A freshly initialized engine: neutral default, empty cache, no
overrides. -/
def freshModuleLevels : ModuleLevels := ⟨.info, [], []⟩

/-- The public operations, for reasoning about operation sequences. -/
inductive Op
  | activate (s : Str)
  | level (n : Str)
  | defaultLevel
  | spec

/-- State transition of one public operation (results are discarded;
`DefaultLevel` and `Spec` do not change the state). -/
def stepOp (m : ModuleLevels) : Op → ModuleLevels
  | .activate s => (m.ActivateSpec s).2
  | .level n => (m.level n).2
  | .defaultLevel => m
  | .spec => m

/-- Run a sequence of public operations from a fresh engine. -/
def runOps (ops : List Op) : ModuleLevels := ops.foldl stepOp freshModuleLevels

/-! ### Claim-side definitions (stated from the spec's words, to be compared
with the code-side definitions above) -/

/-- Stated from the spec's words: an override key applies to a logger name
when it is the exact-match form `name ++ "."` (a key with a trailing
separator applies only to precisely that logger), or it is a bare key equal
to the name, or a bare key naming a strict ancestor of the name (the name
continues with a separator after the key). -/
def applicableKey (key name : Str) : Prop :=
  if key.getLast? = some '.' then key = name ++ ['.']
  else key = name ∨ (key ++ ['.']) <+: name

instance (key name : Str) : Decidable (applicableKey key name) :=
  if h : key.getLast? = some '.' then
    decidable_of_iff (key = name ++ ['.']) (by simp [applicableKey, h])
  else
    decidable_of_iff (key = name ∨ (key ++ ['.']) <+: name)
      (by simp [applicableKey, h])

/-- First entry with the (strictly) longest key; among equal lengths the
earlier entry wins. -/
def maxByKeyLen : SpecMap → Option (Str × Level)
  | [] => none
  | e :: rest =>
    match maxByKeyLen rest with
    | none => some e
    | some f => if f.1.length > e.1.length then some f else some e

/-- Stated from the spec's words: resolution returns the level of the
longest override key applicable to the name, and the default level when no
override applies. -/
def specResolve (sp : SpecMap) (dflt : Level) (name : Str) : Level :=
  match maxByKeyLen (sp.filter (fun e => decide (applicableKey e.1 name))) with
  | some e => e.2
  | none => dflt

/-- The ascending chain of dotted prefixes of a segment list:
`ascPrefixes [a, b, c] = [a, a.b, a.b.c]`. -/
def ascPrefixes : List Str → List Str
  | [] => []
  | s :: rest => s :: (ascPrefixes rest).map (fun t => s ++ '.' :: t)

/-- The candidates `calculateLevel` consults for a (well-formed) name, most
specific first: the exact form `name ++ "."`, then the bare dotted prefixes
from the full name down to the first segment. -/
def candList (name : Str) : List Str :=
  (name ++ ['.']) :: (ascPrefixes (splitOn '.' name)).reverse

/-- The level of the first candidate present in the map, or the default. -/
def firstHit (sp : SpecMap) (dflt : Level) : List Str → Level
  | [] => dflt
  | c :: rest =>
    match lookupA sp c with
    | some l => l
    | none => firstHit sp dflt rest

/-- A well-formed segment decomposition: at least one segment, each
nonempty, period-free, made of logger characters (this is what
`isValidLoggerName` guarantees for the `'.'`-split of a name). -/
def GoodSegs (segs : List Str) : Prop :=
  segs ≠ [] ∧ ∀ s_ ∈ segs, s_ ≠ [] ∧ '.' ∉ s_ ∧ s_.all isLoggerChar

/-- Insertion step of sorting override entries by key. -/
def insertByKey (x : Str × Level) : SpecMap → SpecMap
  | [] => [x]
  | y :: ys => if strLe x.1 y.1 then x :: y :: ys else y :: insertByKey x ys

/-- Sort override entries lexicographically by key (claim-side notion used
by the canonical-serialization claim). -/
def sortByKey : SpecMap → SpecMap
  | [] => []
  | x :: xs => insertByKey x (sortByKey xs)

/-- Stated from the claim's words: the serialization the claim describes —
one `key=level` field per override, lexicographically sorted by *key*,
joined with `':'`, then the default level's name. -/
def claimRender (m : ModuleLevels) : Str :=
  joinSep ':' ((sortByKey m.specs).map renderField ++ [m.defaultLevel.toName])

/-- Stated from the claim's words: a `':'`-separated segment is bad when it
has more than one `'='`, or has an `'='` with an empty left-hand logger
list, or contains a comma-separated logger key failing the syntax check
(after stripping at most one trailing period), or has a non-empty level
field that is not a recognized severity name. -/
def badSeg (f : Str) : Prop :=
  match splitOn '=' f with
  | [x] => x ≠ [] ∧ IsValidLevel x = false
  | [l, r] =>
    l = [] ∨ (∃ lg ∈ splitOn ',' l, isValidLoggerName (trimSuffixDot lg) = false) ∨
      (r ≠ [] ∧ IsValidLevel r = false)
  | _ => True

instance (f : Str) : Decidable (badSeg f) :=
  match h : splitOn '=' f with
  | [x] =>
    decidable_of_iff (x ≠ [] ∧ IsValidLevel x = false) (by simp [badSeg, h])
  | [l, r] =>
    decidable_of_iff
      (l = [] ∨ (∃ lg ∈ splitOn ',' l, isValidLoggerName (trimSuffixDot lg) = false) ∨
        (r ≠ [] ∧ IsValidLevel r = false))
      (by simp [badSeg, h])
  | [] => decidable_of_iff True (by simp [badSeg, h])
  | _ :: _ :: _ :: _ => decidable_of_iff True (by simp [badSeg, h])

/-- All assignments `logger ↦ level` a spec string makes, in left-to-right
scan order (claim-side notion for the duplicate-key claim). -/
def fieldAssigns (field : Str) : List (Str × Level) :=
  match splitOn '=' field with
  | [l, r] => (splitOn ',' l).map (fun lg => (lg, NameToLevel r))
  | _ => []

/-- All assignments of a whole spec string, in scan order. -/
def specAssigns (s : Str) : List (Str × Level) :=
  ((splitOn ':' s).map fieldAssigns).flatten

/-- The rightmost assignment to a key, if any. -/
def lastAssign (asgn : List (Str × Level)) (k : Str) : Option Level :=
  lookupA asgn.reverse k

/-- The final `':'`-separated segment of a spec containing no `'='`, if any
(claim-side notion: the segment that determines the default level). -/
def lastDefaultSeg (s : Str) : Option Str :=
  ((splitOn ':' s).filter (fun f => (splitOn '=' f).length = 1)).getLast?

/-- Cache/configuration consistency: every cached entry equals what the
resolver would compute fresh against the active configuration. -/
def CacheConsistent (m : ModuleLevels) : Prop :=
  ∀ n l, lookupA m.levelCache n = some l →
    l = calculateLevel m.specs m.defaultLevel n

/-- A key as stored by a successful parse: nonempty, free of the three
separators, and a valid logger name after stripping one trailing period. -/
def GoodKey (k : Str) : Prop :=
  k ≠ [] ∧ ':' ∉ k ∧ ',' ∉ k ∧ '=' ∉ k ∧
    isValidLoggerName (trimSuffixDot k) = true

/-- A level value as stored by a successful parse: its printed name is a
recognized spelling that converts back to it (true of every level
`NameToLevel` can return). -/
def GoodVal (v : Level) : Prop :=
  IsValidLevel v.toName = true ∧ NameToLevel v.toName = v

/-- A configuration as left behind by a successful `ActivateSpec`. -/
def GoodState (m : ModuleLevels) : Prop :=
  GoodVal m.defaultLevel ∧ KeysNodup m.specs ∧
    ∀ e ∈ m.specs, GoodKey e.1 ∧ GoodVal e.2

/-! ### Basic lemmas about the string helpers -/

theorem splitOn_ne_nil (sep : Char) (s : Str) : splitOn sep s ≠ [] := by
  induction s with
  | nil => simp [splitOn]
  | cons c rest ih =>
    simp only [splitOn]
    cases h : splitOn sep rest with
    | nil => simp
    | cons p ps =>
      by_cases hc : c = sep <;> simp [hc]

theorem mem_splitOn_not_sep {sep : Char} {s t : Str}
    (ht : t ∈ splitOn sep s) : sep ∉ t := by
  induction s generalizing t with
  | nil =>
    simp [splitOn] at ht
    simp [ht]
  | cons c rest ih =>
    simp only [splitOn] at ht
    cases h : splitOn sep rest with
    | nil => exact absurd h (splitOn_ne_nil sep rest)
    | cons p ps =>
      rw [h] at ht
      by_cases hc : c = sep
      · simp [hc] at ht
        rcases ht with ht | ht | ht
        · simp [ht]
        · exact ih (by rw [h, ht]; exact List.mem_cons_self _ _)
        · exact ih (by rw [h]; exact List.mem_cons_of_mem _ ht)
      · simp [hc] at ht
        rcases ht with ht | ht
        · subst ht
          intro hmem
          rcases List.mem_cons.mp hmem with h1 | h1
          · exact hc h1.symm
          · exact ih (by rw [h]; exact List.mem_cons_self _ _) h1
        · exact ih (by rw [h]; exact List.mem_cons_of_mem _ ht)

theorem mem_splitOn_subset {sep : Char} {s t : Str}
    (ht : t ∈ splitOn sep s) : ∀ x ∈ t, x ∈ s := by
  induction s generalizing t with
  | nil =>
    simp [splitOn] at ht
    simp [ht]
  | cons c rest ih =>
    intro x hx
    simp only [splitOn] at ht
    cases h : splitOn sep rest with
    | nil => exact absurd h (splitOn_ne_nil sep rest)
    | cons p ps =>
      rw [h] at ht
      by_cases hc : c = sep
      · simp [hc] at ht
        rcases ht with ht | ht | ht
        · simp [ht] at hx
        · exact List.mem_cons_of_mem _
            (ih (by rw [h, ht]; exact List.mem_cons_self _ _) x hx)
        · exact List.mem_cons_of_mem _
            (ih (by rw [h]; exact List.mem_cons_of_mem _ ht) x hx)
      · simp [hc] at ht
        rcases ht with ht | ht
        · subst ht
          rcases List.mem_cons.mp hx with h1 | h1
          · exact h1 ▸ List.mem_cons_self _ _
          · exact List.mem_cons_of_mem _
              (ih (by rw [h]; exact List.mem_cons_self _ _) x h1)
        · exact List.mem_cons_of_mem _
            (ih (by rw [h]; exact List.mem_cons_of_mem _ ht) x hx)

theorem splitOn_of_not_mem {sep : Char} {s : Str} (hs : sep ∉ s) :
    splitOn sep s = [s] := by
  induction s with
  | nil => rfl
  | cons c rest ih =>
    have hc : c ≠ sep := fun h => hs (h ▸ List.mem_cons_self _ _)
    have hrest : sep ∉ rest := fun h => hs (List.mem_cons_of_mem _ h)
    simp only [splitOn, ih hrest]
    simp [fun h => hc h]

theorem splitOn_append_sep {sep : Char} {A t : Str} (hA : sep ∉ A) :
    splitOn sep (A ++ sep :: t) = A :: splitOn sep t := by
  induction A with
  | nil =>
    simp only [List.nil_append, splitOn]
    cases h : splitOn sep t with
    | nil => exact absurd h (splitOn_ne_nil sep t)
    | cons p ps => simp
  | cons a A ih =>
    have ha : a ≠ sep := fun h => hA (h ▸ List.mem_cons_self _ _)
    have hA' : sep ∉ A := fun h => hA (List.mem_cons_of_mem _ h)
    simp only [List.cons_append, splitOn, List.append_eq]
    rw [ih hA']
    simp [ha]

theorem joinSep_cons₂ (c : Char) (s t : Str) (ts : List Str) :
    joinSep c (s :: t :: ts) = s ++ c :: joinSep c (t :: ts) := rfl

theorem splitOn_joinSep {sep : Char} {parts : List Str}
    (hp : ∀ p ∈ parts, sep ∉ p) (hne : parts ≠ []) :
    splitOn sep (joinSep sep parts) = parts := by
  induction parts with
  | nil => exact absurd rfl hne
  | cons p ps ih =>
    cases ps with
    | nil =>
      simp only [joinSep]
      exact splitOn_of_not_mem (hp p (List.mem_cons_self _ _))
    | cons q qs =>
      rw [joinSep_cons₂]
      rw [splitOn_append_sep (hp p (List.mem_cons_self _ _))]
      rw [ih (fun x hx => hp x (List.mem_cons_of_mem _ hx)) (by simp)]

theorem joinSep_splitOn (sep : Char) (s : Str) :
    joinSep sep (splitOn sep s) = s := by
  induction s with
  | nil => rfl
  | cons c rest ih =>
    simp only [splitOn]
    cases h : splitOn sep rest with
    | nil => exact absurd h (splitOn_ne_nil sep rest)
    | cons p ps =>
      rw [h] at ih
      by_cases hc : c = sep
      · subst hc
        simp only [if_pos rfl]
        cases ps with
        | nil => simpa [joinSep] using ih
        | cons q qs => simpa [joinSep] using ih
      · simp only [if_neg hc]
        cases ps with
        | nil => simpa [joinSep] using ih
        | cons q qs =>
          rw [joinSep_cons₂] at ih ⊢
          simpa using ih

theorem lastIdx_lt {c : Char} {s : Str} {i : Nat}
    (h : lastIdx c s = some i) : i < s.length := by
  induction s generalizing i with
  | nil => simp [lastIdx] at h
  | cons a rest ih =>
    simp only [lastIdx] at h
    cases hr : lastIdx c rest with
    | some j =>
      rw [hr] at h
      simp only [Option.some.injEq] at h
      subst h
      simpa using Nat.succ_lt_succ (ih hr)
    | none =>
      rw [hr] at h
      by_cases ha : a = c
      · simp [ha] at h
        simp [← h]
      · simp [ha] at h

theorem lastIdx_eq_none {c : Char} {s : Str} (hs : c ∉ s) :
    lastIdx c s = none := by
  induction s with
  | nil => rfl
  | cons a rest ih =>
    have ha : a ≠ c := fun h => hs (h ▸ List.mem_cons_self _ _)
    have hrest : c ∉ rest := fun h => hs (List.mem_cons_of_mem _ h)
    simp [lastIdx, ih hrest, ha]

theorem lastIdx_append_sep {c : Char} {A B : Str} (hB : c ∉ B) :
    lastIdx c (A ++ c :: B) = some A.length := by
  induction A with
  | nil => simp [lastIdx, lastIdx_eq_none hB]
  | cons a A ih => simp [lastIdx, ih]

/-! ### Lemmas about the association-list maps -/

theorem lookupA_filter_keyne (m : SpecMap) (k key : Str) (hk : key ≠ k) :
    lookupA (m.filter fun e => decide (e.1 ≠ k)) key = lookupA m key := by
  induction m with
  | nil => rfl
  | cons e rest ih =>
    obtain ⟨k', v'⟩ := e
    by_cases he : k' = k
    · subst he
      have hne : k' ≠ key := fun h => hk h.symm
      simpa [List.filter_cons, lookupA, hne, decide_not] using ih
    · simp only [decide_not] at ih
      simp [List.filter_cons, lookupA, he, ih]

theorem lookupA_insertA (k : Str) (v : Level) (m : SpecMap) (key : Str) :
    lookupA (insertA k v m) key = if key = k then some v else lookupA m key := by
  by_cases hk : key = k
  · subst hk
    simp [insertA, lookupA]
  · rw [if_neg hk]
    show lookupA ((k, v) :: List.filter (fun e => decide (e.1 ≠ k)) m) key =
      lookupA m key
    simp only [lookupA]
    have hne : ¬(k = key) := fun h => hk h.symm
    rw [if_neg hne]
    exact lookupA_filter_keyne m k key hk

theorem lookupA_eq_none_iff {m : SpecMap} {k : Str} :
    lookupA m k = none ↔ k ∉ m.map Prod.fst := by
  induction m with
  | nil => simp [lookupA]
  | cons e rest ih =>
    cases e with
    | mk k' v' =>
      by_cases hk : k' = k
      · simp [lookupA, hk]
      · have hne : ¬k = k' := fun h => hk h.symm
        simp [lookupA, hk, hne, ih]

theorem lookupA_some_mem {m : SpecMap} {k : Str} {v : Level}
    (h : lookupA m k = some v) : (k, v) ∈ m := by
  induction m with
  | nil => simp [lookupA] at h
  | cons e rest ih =>
    cases e with
    | mk k' v' =>
      simp only [lookupA] at h
      by_cases hk : k' = k
      · rw [if_pos hk] at h
        injection h with h
        subst h
        subst hk
        exact List.mem_cons_self _ _
      · rw [if_neg hk] at h
        exact List.mem_cons_of_mem _ (ih h)

theorem lookupA_of_mem_nodup {m : SpecMap} {k : Str} {v : Level}
    (hnd : KeysNodup m) (hmem : (k, v) ∈ m) : lookupA m k = some v := by
  induction m with
  | nil => simp at hmem
  | cons e rest ih =>
    cases e with
    | mk k' v' =>
      have hnd' : KeysNodup rest := by
        simpa [KeysNodup] using (List.nodup_cons.mp hnd).2
      rcases List.mem_cons.mp hmem with h | h
      · injection h with h1 h2
        subst h1; subst h2
        simp [lookupA]
      · have hk : k' ≠ k := by
          intro he
          have : k' ∈ rest.map Prod.fst := by
            subst he
            exact List.mem_map.mpr ⟨(k', v), h, rfl⟩
          exact (List.nodup_cons.mp hnd).1 this
        simp [lookupA, hk, ih hnd' h]

theorem keysNodup_insertA (k : Str) (v : Level) {m : SpecMap}
    (h : KeysNodup m) : KeysNodup (insertA k v m) := by
  unfold KeysNodup insertA
  simp only [List.map_cons, List.nodup_cons]
  constructor
  · intro hk
    rcases List.mem_map.mp hk with ⟨e, he, hke⟩
    have := (List.mem_filter.mp he).2
    simp [hke] at this
  · have : (m.filter (fun e => e.1 ≠ k)).map Prod.fst |>.Sublist (m.map Prod.fst) :=
      List.Sublist.map _ (List.filter_sublist m)
    exact List.Nodup.sublist this h

theorem keysNodup_nil : KeysNodup [] := by simp [KeysNodup]

/-! ### The resolution walk, rephrased over candidate lists -/

theorem calcLoop_fuel_congr (sp : SpecMap) (d : Level) :
    ∀ f₁ f₂ c, c.length < f₁ → c.length < f₂ →
      calcLoop sp d f₁ c = calcLoop sp d f₂ c := by
  intro f₁
  induction f₁ with
  | zero => exact fun f₂ c h1 _ => absurd h1 (Nat.not_lt_zero _)
  | succ g ih =>
    intro f₂ c h1 h2
    cases f₂ with
    | zero => exact absurd h2 (Nat.not_lt_zero _)
    | succ h =>
      simp only [calcLoop]
      cases hl : lookupA sp c with
      | some l => rfl
      | none =>
        cases hi : lastIdx '.' c with
        | none => rfl
        | some idx =>
          cases idx with
          | zero => rfl
          | succ j =>
            have hjlt := lastIdx_lt hi
            have hlen : (c.take (j + 1)).length = j + 1 := by
              rw [List.length_take]
              omega
            exact ih h (c.take (j + 1)) (by omega) (by omega)

theorem calcLoop_hit {sp : SpecMap} {c : Str} {l : Level} (d : Level) {f : Nat}
    (hf : 0 < f) (hl : lookupA sp c = some l) : calcLoop sp d f c = l := by
  cases f with
  | zero => exact absurd hf (by simp)
  | succ g => simp [calcLoop, hl]

theorem calcLoop_succ_miss_idx (sp : SpecMap) (d : Level) (g : Nat) {c : Str}
    {idx : Nat} (hl : lookupA sp c = none) (hi : lastIdx '.' c = some idx)
    (hidx : idx ≠ 0) : calcLoop sp d (g + 1) c = calcLoop sp d g (c.take idx) := by
  cases idx with
  | zero => exact absurd rfl hidx
  | succ j => simp only [calcLoop, hl, hi]

theorem calcLoop_step_miss {sp : SpecMap} {d : Level} {A B : Str}
    (hB : '.' ∉ B) {f : Nat} (hf : (A ++ '.' :: B).length < f)
    (hl : lookupA sp (A ++ '.' :: B) = none) (hA : A ≠ []) :
    calcLoop sp d f (A ++ '.' :: B) = calcLoop sp d (A.length + 1) A := by
  cases f with
  | zero => exact absurd hf (Nat.not_lt_zero _)
  | succ g =>
    have hA0 : A.length ≠ 0 := by
      cases A with
      | nil => exact absurd rfl hA
      | cons a as' => simp
    rw [calcLoop_succ_miss_idx sp d g hl (lastIdx_append_sep hB) hA0]
    rw [List.take_left A ('.' :: B)]
    have hlt : A.length < g := by
      have := hf
      simp only [List.length_append, List.length_cons] at this
      omega
    exact calcLoop_fuel_congr sp d g (A.length + 1) A hlt (by omega)

theorem calcLoop_step_miss_nil {sp : SpecMap} {d : Level} {B : Str}
    (hB : '.' ∉ B) {f : Nat} (hf : ('.' :: B).length < f)
    (hl : lookupA sp ('.' :: B) = none) :
    calcLoop sp d f ('.' :: B) = d := by
  cases f with
  | zero => exact absurd hf (Nat.not_lt_zero _)
  | succ g =>
    simp only [calcLoop, hl]
    have : lastIdx '.' ('.' :: B) = some 0 := by
      have h0 : lastIdx '.' (([] : Str) ++ '.' :: B) = some ([] : Str).length :=
        lastIdx_append_sep hB
      simpa using h0
    rw [this]

theorem calcLoop_base {sp : SpecMap} {d : Level} {C : Str}
    (hC : '.' ∉ C) {f : Nat} (hf : C.length < f) :
    calcLoop sp d f C = (lookupA sp C).getD d := by
  cases f with
  | zero => exact absurd hf (Nat.not_lt_zero _)
  | succ g =>
    simp only [calcLoop]
    cases hl : lookupA sp C with
    | some l => rfl
    | none =>
      rw [lastIdx_eq_none hC]
      rfl

theorem joinSep_cons_of_ne_nil (c : Char) (s : Str) {rest : List Str}
    (h : rest ≠ []) : joinSep c (s :: rest) = s ++ c :: joinSep c rest := by
  cases rest with
  | nil => exact absurd rfl h
  | cons t ts => exact joinSep_cons₂ c s t ts

theorem joinSep_append_singleton (c : Char) {xs : List Str} (y : Str)
    (h : xs ≠ []) : joinSep c (xs ++ [y]) = joinSep c xs ++ c :: y := by
  induction xs with
  | nil => exact absurd rfl h
  | cons s xs ih =>
    cases xs with
    | nil => simp [joinSep]
    | cons t ts =>
      rw [List.cons_append, joinSep_cons_of_ne_nil c s (by simp),
        ih (by simp), joinSep_cons₂]
      simp

theorem joinSep_ne_nil {segs : List Str} (h : segs ≠ [])
    (h2 : ∀ s_ ∈ segs, s_ ≠ []) : joinSep '.' segs ≠ [] := by
  cases segs with
  | nil => exact absurd rfl h
  | cons s rest =>
    have hs : s ≠ [] := h2 s (List.mem_cons_self _ _)
    cases rest with
    | nil => exact hs
    | cons t ts =>
      rw [joinSep_cons₂]
      cases s with
      | nil => exact absurd rfl hs
      | cons a as' => simp

theorem ascPrefixes_snoc (xs : List Str) (y : Str) :
    ascPrefixes (xs ++ [y]) = ascPrefixes xs ++ [joinSep '.' (xs ++ [y])] := by
  induction xs with
  | nil => simp [ascPrefixes, joinSep]
  | cons s xs ih =>
    rw [List.cons_append]
    simp only [ascPrefixes]
    rw [ih, List.map_append, joinSep_cons_of_ne_nil '.' s (by simp)]
    simp

theorem goodSegs_of_valid {name : Str} (h : isValidLoggerName name = true) :
    GoodSegs (splitOn '.' name) := by
  unfold isValidLoggerName at h
  rw [List.all_eq_true] at h
  refine ⟨splitOn_ne_nil '.' name, fun s_ hs => ?_⟩
  have := h s_ hs
  simp only [Bool.and_eq_true, Bool.not_eq_true'] at this
  refine ⟨by simpa [List.isEmpty_iff] using this.1, mem_splitOn_not_sep hs, this.2⟩

theorem valid_name_ne_nil {name : Str} (h : isValidLoggerName name = true) :
    name ≠ [] := by
  intro he
  subst he
  simp [isValidLoggerName, splitOn] at h

theorem calc_walk (sp : SpecMap) (d : Level) :
    ∀ segs, GoodSegs segs →
      calcLoop sp d ((joinSep '.' segs).length + 1) (joinSep '.' segs)
        = firstHit sp d (ascPrefixes segs).reverse := by
  intro segs
  induction segs using List.reverseRecOn with
  | nil => exact fun h => absurd rfl h.1
  | append_singleton xs y ih =>
    intro hgood
    rw [ascPrefixes_snoc, List.reverse_append]
    simp only [List.reverse_cons, List.reverse_nil, List.nil_append,
      List.singleton_append]
    have hy := hgood.2 y (by simp)
    cases xs with
    | nil =>
      simp only [List.nil_append]
      have hbase : calcLoop sp d ((joinSep '.' [y]).length + 1) (joinSep '.' [y])
          = (lookupA sp (joinSep '.' [y])).getD d := by
        exact calcLoop_base (by simpa [joinSep] using hy.2.1) (by omega)
      rw [hbase]
      cases hl : lookupA sp (joinSep '.' [y]) with
      | some l => simp [firstHit, hl]
      | none => simp [firstHit, hl]
    | cons x xs' =>
      have hxs : (x :: xs') ≠ [] := by simp
      have hjoin := joinSep_append_singleton '.' y hxs
      rw [hjoin]
      have hgood' : GoodSegs (x :: xs') := by
        refine ⟨hxs, fun s_ hs => hgood.2 s_ (List.mem_append_left _ hs)⟩
      have hjne : joinSep '.' (x :: xs') ≠ [] :=
        joinSep_ne_nil hxs (fun s_ hs => (hgood'.2 s_ hs).1)
      cases hl : lookupA sp (joinSep '.' (x :: xs') ++ '.' :: y) with
      | some l =>
        rw [calcLoop_hit d (by omega) hl]
        simp [firstHit, hl]
      | none =>
        rw [calcLoop_step_miss hy.2.1 (by omega) hl hjne]
        simp only [firstHit, hl]
        exact ih hgood'

theorem calculateLevel_eq_firstHit (sp : SpecMap) (d : Level) (name : Str)
    (h : isValidLoggerName name = true) :
    calculateLevel sp d name = firstHit sp d (candList name) := by
  have hgood := goodSegs_of_valid h
  have hne := valid_name_ne_nil h
  unfold calculateLevel candList
  cases hl : lookupA sp (name ++ ['.']) with
  | some l =>
    rw [calcLoop_hit d (by omega) hl]
    simp [firstHit, hl]
  | none =>
    have hstep : calcLoop sp d (name.length + 2) (name ++ '.' :: [])
        = calcLoop sp d (name.length + 1) name :=
      calcLoop_step_miss (by simp) (by simp) hl hne
    rw [hstep]
    simp only [firstHit, hl]
    conv_lhs => rw [show name = joinSep '.' (splitOn '.' name) from
      (joinSep_splitOn '.' name).symm]
    exact calc_walk sp d (splitOn '.' name) hgood

/-! ### The spec-side resolver agrees with the walk on valid names -/

theorem maxByKeyLen_mem {l : SpecMap} {e : Str × Level}
    (h : maxByKeyLen l = some e) : e ∈ l := by
  induction l generalizing e with
  | nil => simp [maxByKeyLen] at h
  | cons g rest ih =>
    cases hm : maxByKeyLen rest with
    | none =>
      have heq : maxByKeyLen (g :: rest) = some g := by
        simp [maxByKeyLen, hm]
      rw [heq] at h
      injection h with h
      exact h ▸ List.mem_cons_self _ _
    | some f =>
      by_cases hgt : f.1.length > g.1.length
      · have heq : maxByKeyLen (g :: rest) = some f := by
          simp [maxByKeyLen, hm, hgt]
        rw [heq] at h
        injection h with h
        exact List.mem_cons_of_mem _ (h ▸ ih hm)
      · have heq : maxByKeyLen (g :: rest) = some g := by
          simp [maxByKeyLen, hm, hgt]
        rw [heq] at h
        injection h with h
        exact h ▸ List.mem_cons_self _ _

theorem maxByKeyLen_of_unique_max {l : SpecMap} {e₀ : Str × Level}
    (hmem : e₀ ∈ l) (hmax : ∀ f ∈ l, f ≠ e₀ → f.1.length < e₀.1.length) :
    maxByKeyLen l = some e₀ := by
  induction l with
  | nil => simp at hmem
  | cons g rest ih =>
    rcases List.mem_cons.mp hmem with hg | hrest
    · subst hg
      cases hm : maxByKeyLen rest with
      | none => simp [maxByKeyLen, hm]
      | some f =>
        have hf : f ∈ rest := maxByKeyLen_mem hm
        by_cases hfe : f = e₀
        · subst hfe
          simp [maxByKeyLen, hm]
        · have hlt := hmax f (List.mem_cons_of_mem _ hf) hfe
          have hngt : ¬f.1.length > e₀.1.length := by omega
          simp [maxByKeyLen, hm, hngt]
    · have hrec : maxByKeyLen rest = some e₀ :=
        ih hrest (fun f hf hne => hmax f (List.mem_cons_of_mem _ hf) hne)
      by_cases hge : g = e₀
      · subst hge
        simp [maxByKeyLen, hrec]
      · have hlt := hmax g (List.mem_cons_self _ _) hge
        have hgt : e₀.1.length > g.1.length := hlt
        simp [maxByKeyLen, hrec, hgt]

theorem eq_of_mem_keysNodup {sp : SpecMap} (h : KeysNodup sp)
    {e f : Str × Level} (he : e ∈ sp) (hf : f ∈ sp) (hk : e.1 = f.1) :
    e = f := by
  induction sp with
  | nil => simp at he
  | cons g rest ih =>
    have hnd := List.nodup_cons.mp h
    rcases List.mem_cons.mp he with he1 | he1 <;>
      rcases List.mem_cons.mp hf with hf1 | hf1
    · rw [he1, hf1]
    · exfalso
      apply hnd.1
      rw [he1] at hk
      rw [hk]
      exact List.mem_map.mpr ⟨f, hf1, rfl⟩
    · exfalso
      apply hnd.1
      rw [hf1] at hk
      rw [← hk]
      exact List.mem_map.mpr ⟨e, he1, rfl⟩
    · exact ih (by simpa [KeysNodup] using hnd.2) he1 hf1

theorem maxFilter_eq_firstHit (sp : SpecMap) (d : Level) :
    ∀ cands, KeysNodup sp →
      List.Pairwise (fun a b : Str => b.length < a.length) cands →
      (match maxByKeyLen (sp.filter (fun e => decide (e.1 ∈ cands))) with
       | some e => e.2
       | none => d) = firstHit sp d cands := by
  intro cands
  induction cands with
  | nil =>
    intro _ _
    have : sp.filter (fun e => decide (e.1 ∈ ([] : List Str))) = [] := by
      simp
    rw [this]
    rfl
  | cons c rest ih =>
    intro hnd hpw
    have hpw' := (List.pairwise_cons.mp hpw).2
    have hhead := (List.pairwise_cons.mp hpw).1
    cases hl : lookupA sp c with
    | none =>
      have hnotkey : c ∉ sp.map Prod.fst := lookupA_eq_none_iff.mp hl
      have hfeq : sp.filter (fun e => decide (e.1 ∈ c :: rest))
          = sp.filter (fun e => decide (e.1 ∈ rest)) := by
        apply List.filter_congr
        intro e he
        have : e.1 ≠ c := fun h => hnotkey (h ▸ List.mem_map.mpr ⟨e, he, rfl⟩)
        simp [List.mem_cons, this]
      rw [hfeq]
      simp only [firstHit, hl]
      exact ih hnd hpw'
    | some v =>
      have hmem : (c, v) ∈ sp := lookupA_some_mem hl
      have hfmem : (c, v) ∈ sp.filter (fun e => decide (e.1 ∈ c :: rest)) := by
        apply List.mem_filter.mpr
        exact ⟨hmem, by simp⟩
      have hmax : maxByKeyLen (sp.filter (fun e => decide (e.1 ∈ c :: rest)))
          = some (c, v) := by
        apply maxByKeyLen_of_unique_max hfmem
        intro f hf hne
        have hf1 := List.mem_filter.mp hf
        have hfin : f.1 ∈ c :: rest := by simpa using hf1.2
        rcases List.mem_cons.mp hfin with hfc | hfr
        · exfalso
          exact hne (eq_of_mem_keysNodup hnd hf1.1 hmem hfc)
        · exact hhead f.1 hfr
      rw [hmax]
      simp only [firstHit, hl]

theorem ascPrefixes_getLast {segs : List Str}
    (h : ∀ s_ ∈ segs, s_ ≠ [] ∧ '.' ∉ s_ ∧ s_.all isLoggerChar) :
    ∀ p ∈ ascPrefixes segs, p ≠ [] ∧ p.getLast? ≠ some '.' := by
  induction segs with
  | nil => simp [ascPrefixes]
  | cons s rest ih =>
    intro p hp
    simp only [ascPrefixes] at hp
    rcases List.mem_cons.mp hp with hp1 | hp1
    · subst hp1
      have hs := h p (List.mem_cons_self _ _)
      refine ⟨hs.1, ?_⟩
      rw [List.getLast?_eq_getLast p hs.1]
      intro hc
      injection hc with hc
      exact hs.2.1 (hc ▸ List.getLast_mem hs.1)
    · rcases List.mem_map.mp hp1 with ⟨t, ht, hteq⟩
      have hrec := ih (fun s_ hs => h s_ (List.mem_cons_of_mem _ hs)) t ht
      subst hteq
      constructor
      · simp
      · rw [List.getLast?_append_of_ne_nil s (by simp)]
        cases t with
        | nil => exact absurd rfl hrec.1
        | cons t0 ts =>
          rw [show '.' :: t0 :: ts = ['.'] ++ t0 :: ts from rfl,
            List.getLast?_append_of_ne_nil ['.'] (by simp)]
          exact hrec.2

theorem ascPrefixes_pre_join {segs : List Str} :
    ∀ p ∈ ascPrefixes segs, p <+: joinSep '.' segs := by
  induction segs with
  | nil => simp [ascPrefixes]
  | cons s rest ih =>
    intro p hp
    simp only [ascPrefixes] at hp
    rcases List.mem_cons.mp hp with hp1 | hp1
    · subst hp1
      cases rest with
      | nil => exact List.prefix_refl _
      | cons t ts =>
        rw [joinSep_cons₂]
        exact List.prefix_append p ('.' :: joinSep '.' (t :: ts))
    · rcases List.mem_map.mp hp1 with ⟨t, ht, hteq⟩
      subst hteq
      have hrest : rest ≠ [] := by
        intro he
        rw [he] at ht
        simp [ascPrefixes] at ht
      rw [joinSep_cons_of_ne_nil '.' s hrest]
      rw [List.prefix_append_right_inj s]
      exact List.cons_prefix_cons.mpr ⟨rfl, ih t ht⟩

theorem ascPrefixes_length_lt {segs : List Str}
    (h : ∀ s_ ∈ segs, s_ ≠ []) :
    List.Pairwise (fun a b : Str => a.length < b.length) (ascPrefixes segs) := by
  induction segs with
  | nil => simp [ascPrefixes]
  | cons s rest ih =>
    simp only [ascPrefixes]
    apply List.pairwise_cons.mpr
    constructor
    · intro b hb
      rcases List.mem_map.mp hb with ⟨t, _, hteq⟩
      subst hteq
      simp only [List.length_append, List.length_cons]
      omega
    · rw [List.pairwise_map]
      apply List.Pairwise.imp ?_ (ih (fun s_ hs => h s_ (List.mem_cons_of_mem _ hs)))
      intro a b hab
      simp only [List.length_append, List.length_cons]
      omega

theorem joinSep_mem_ascPrefixes : ∀ {segs : List Str}, segs ≠ [] →
    joinSep '.' segs ∈ ascPrefixes segs := by
  intro segs
  induction segs with
  | nil => exact fun h => absurd rfl h
  | cons s rest ih =>
    intro _
    cases rest with
    | nil => simp [ascPrefixes, joinSep]
    | cons t ts =>
      rw [joinSep_cons_of_ne_nil '.' s (by simp)]
      simp only [ascPrefixes, List.mem_cons]
      right
      apply List.mem_map.mpr
      exact ⟨joinSep '.' (t :: ts), ih (by simp), rfl⟩

theorem mem_ascPrefixes_iff :
    ∀ (segs : List Str), (∀ s_ ∈ segs, s_ ≠ [] ∧ '.' ∉ s_) → segs ≠ [] →
      ∀ k : Str, (k ∈ ascPrefixes segs ↔
        (k = joinSep '.' segs ∨ k ++ ['.'] <+: joinSep '.' segs)) := by
  intro segs
  induction segs with
  | nil => exact fun _ hne => absurd rfl hne
  | cons s rest ih =>
    intro hgood _ k
    have hs := hgood s (List.mem_cons_self _ _)
    cases rest with
    | nil =>
      simp only [ascPrefixes, List.map_nil, joinSep, List.mem_singleton]
      constructor
      · exact fun hk => Or.inl hk
      · rintro (hk | hk)
        · exact hk
        · exact absurd (hk.subset (by simp)) hs.2
    | cons t ts =>
      have hrest : (t :: ts) ≠ [] := by simp
      have hjoin : joinSep '.' (s :: t :: ts) = s ++ '.' :: joinSep '.' (t :: ts) :=
        joinSep_cons_of_ne_nil '.' s hrest
      have ihr := ih (fun x hx => hgood x (List.mem_cons_of_mem _ hx)) hrest
      rw [hjoin]
      simp only [ascPrefixes, List.mem_cons]
      constructor
      · rintro (hk | hk)
        · subst hk
          right
          rw [show k ++ ['.'] = k ++ '.' :: ([] : Str) from rfl]
          rw [show (k ++ '.' :: joinSep '.' (t :: ts) : Str)
            = k ++ '.' :: joinSep '.' (t :: ts) from rfl]
          rw [List.prefix_append_right_inj k]
          exact List.cons_prefix_cons.mpr ⟨rfl, List.nil_prefix⟩
        · rcases List.mem_map.mp hk with ⟨u, hu, hueq⟩
          rcases (ihr u).mp hu with h1 | h1
          · left
            rw [← hueq, h1]
          · right
            rw [← hueq]
            have : (s ++ '.' :: u) ++ ['.'] = s ++ '.' :: (u ++ ['.']) := by
              simp
            rw [this, List.prefix_append_right_inj s]
            exact List.cons_prefix_cons.mpr ⟨rfl, h1⟩
      · rintro (hk | hk)
        · right
          apply List.mem_map.mpr
          exact ⟨joinSep '.' (t :: ts), joinSep_mem_ascPrefixes hrest, hk.symm⟩
        · have hsp : s <+: s ++ '.' :: joinSep '.' (t :: ts) := List.prefix_append _ _
          rcases List.prefix_or_prefix_of_prefix hk hsp with h1 | h1
          · exact absurd (h1.subset (by simp)) hs.2
          · obtain ⟨u, hu⟩ := h1
            rcases List.eq_nil_or_concat u with hun | ⟨w, c_, hw⟩
            · subst hun
              rw [List.append_nil] at hu
              exact absurd (hu ▸ (by simp : '.' ∈ k ++ ['.'])) hs.2
            · rw [List.concat_eq_append] at hw
              subst hw
              rw [← List.append_assoc] at hu
              have hinj := List.append_inj' hu (by simp)
              have hk2 : k = s ++ w := hinj.1.symm
              subst hk2
              have hpre : w ++ ['.'] <+: '.' :: joinSep '.' (t :: ts) := by
                have h3 : (s ++ w) ++ ['.'] = s ++ (w ++ ['.']) := by simp
                rw [h3, List.prefix_append_right_inj s] at hk
                exact hk
              cases w with
              | nil =>
                left
                simp
              | cons w0 ws =>
                have hcp := List.cons_prefix_cons.mp hpre
                right
                apply List.mem_map.mpr
                refine ⟨ws, (ihr ws).mpr (Or.inr hcp.2), ?_⟩
                rw [hcp.1]

theorem applicable_iff_mem_candList {name : Str}
    (h : isValidLoggerName name = true) (k : Str) :
    applicableKey k name ↔ k ∈ candList name := by
  have hgood := goodSegs_of_valid h
  have hj : joinSep '.' (splitOn '.' name) = name := joinSep_splitOn '.' name
  have hgl := ascPrefixes_getLast (fun s_ hs => hgood.2 s_ hs)
  unfold candList applicableKey
  by_cases hlast : k.getLast? = some '.'
  · rw [if_pos hlast]
    constructor
    · intro hk
      exact hk ▸ List.mem_cons_self _ _
    · intro hk
      rcases List.mem_cons.mp hk with h1 | h1
      · exact h1
      · exact absurd hlast (hgl k (List.mem_reverse.mp h1)).2
  · rw [if_neg hlast]
    have hmi := mem_ascPrefixes_iff (splitOn '.' name)
      (fun s_ hs => ⟨(hgood.2 s_ hs).1, (hgood.2 s_ hs).2.1⟩) hgood.1 k
    rw [hj] at hmi
    constructor
    · intro hk
      exact List.mem_cons_of_mem _ (List.mem_reverse.mpr (hmi.mpr hk))
    · intro hk
      rcases List.mem_cons.mp hk with h1 | h1
      · exact absurd (h1 ▸ (by simp : (name ++ ['.'] : Str).getLast? = some '.'))
          hlast
      · exact hmi.mp (List.mem_reverse.mp h1)

theorem candList_pairwise {name : Str} (h : isValidLoggerName name = true) :
    List.Pairwise (fun a b : Str => b.length < a.length) (candList name) := by
  have hgood := goodSegs_of_valid h
  unfold candList
  apply List.pairwise_cons.mpr
  constructor
  · intro b hb
    have hbmem : b ∈ ascPrefixes (splitOn '.' name) := List.mem_reverse.mp hb
    have hle := (ascPrefixes_pre_join b hbmem).length_le
    rw [joinSep_splitOn] at hle
    simp only [List.length_append, List.length_cons, List.length_nil]
    omega
  · rw [List.pairwise_reverse]
    have := ascPrefixes_length_lt (fun s_ hs => (hgood.2 s_ hs).1)
    exact this.imp (fun hab => hab)

theorem calculateLevel_eq_specResolve (sp : SpecMap) (d : Level) (name : Str)
    (hv : isValidLoggerName name = true) (hnd : KeysNodup sp) :
    calculateLevel sp d name = specResolve sp d name := by
  rw [calculateLevel_eq_firstHit sp d name hv]
  unfold specResolve
  have hfc : sp.filter (fun e => decide (applicableKey e.1 name))
      = sp.filter (fun e => decide (e.1 ∈ candList name)) := by
    apply List.filter_congr
    intro e _
    exact decide_eq_decide.mpr (applicable_iff_mem_candList hv e.1)
  rw [hfc]
  exact (maxFilter_eq_firstHit sp d (candList name) hnd (candList_pairwise hv)).symm

theorem firstHit_congr {sp1 sp2 : SpecMap} {d : Level} :
    ∀ {cands : List Str}, (∀ c ∈ cands, lookupA sp1 c = lookupA sp2 c) →
      firstHit sp1 d cands = firstHit sp2 d cands := by
  intro cands
  induction cands with
  | nil => intro _; rfl
  | cons c rest ih =>
    intro h
    have hc := h c (List.mem_cons_self _ _)
    simp only [firstHit, hc]
    cases lookupA sp2 c with
    | some l => rfl
    | none => exact ih (fun x hx => h x (List.mem_cons_of_mem _ hx))

/-- C1: Longest-match resolution — with overrides `{"a.b": DEBUG}` and
default INFO, `Level` returns DEBUG for `"a.b.c"` and `"a.b"`, INFO for
`"a.x"` and `"a"`; and in general, for every configuration (a map, i.e.
distinct keys) and every logger name (a well-formed dot-separated
identifier), the resolver returns the level of the longest override key
applicable to the name, and the default level when no override applies. -/
theorem c1_longest_match :
    ((ModuleLevels.level ⟨.info, [], [(("a.b").toList, Level.debug)]⟩
        (("a.b.c").toList)).1 = Level.debug
      ∧ (ModuleLevels.level ⟨.info, [], [(("a.b").toList, Level.debug)]⟩
        (("a.b").toList)).1 = Level.debug
      ∧ (ModuleLevels.level ⟨.info, [], [(("a.b").toList, Level.debug)]⟩
        (("a.x").toList)).1 = Level.info
      ∧ (ModuleLevels.level ⟨.info, [], [(("a.b").toList, Level.debug)]⟩
        (("a").toList)).1 = Level.info)
    ∧ ∀ (sp : SpecMap) (dflt : Level) (name : Str),
        KeysNodup sp → isValidLoggerName name = true →
        calculateLevel sp dflt name = specResolve sp dflt name :=
  ⟨⟨by decide, by decide, by decide, by decide⟩,
    fun sp dflt name hnd hv => calculateLevel_eq_specResolve sp dflt name hv hnd⟩

theorem c1_witness :
    KeysNodup [(("a.b").toList, Level.debug)]
    ∧ isValidLoggerName (("a.b.c").toList) = true
    ∧ calculateLevel [(("a.b").toList, Level.debug)] Level.info (("a.b.c").toList)
        = specResolve [(("a.b").toList, Level.debug)] Level.info (("a.b.c").toList) :=
  ⟨by simp [KeysNodup], by decide,
    c1_longest_match.2 [(("a.b").toList, Level.debug)] Level.info
      (("a.b.c").toList) (by simp [KeysNodup]) (by decide)⟩

/-- C2: Exact-vs-prefix distinction — with overrides
`{"a.b.": ERROR, "a.b": DEBUG}`, `Level("a.b")` is ERROR while
`Level("a.b.c")` is DEBUG; and in general, for every configuration, an
exact-match key `X ++ "."` is never consulted while resolving any
well-formed logger name other than `X` itself: deleting the key from the
override map does not change the result of any such resolution. -/
theorem c2_exact_vs_prefix :
    ((ModuleLevels.level
        ⟨.info, [], [(("a.b.").toList, Level.error), (("a.b").toList, Level.debug)]⟩
        (("a.b").toList)).1 = Level.error
      ∧ (ModuleLevels.level
        ⟨.info, [], [(("a.b.").toList, Level.error), (("a.b").toList, Level.debug)]⟩
        (("a.b.c").toList)).1 = Level.debug)
    ∧ ∀ (sp : SpecMap) (dflt : Level) (X name : Str),
        isValidLoggerName name = true → name ≠ X →
        calculateLevel (sp.filter (fun e => decide (e.1 ≠ X ++ ['.']))) dflt name
          = calculateLevel sp dflt name := by
  refine ⟨⟨by decide, by decide⟩, fun sp dflt X name hv hne => ?_⟩
  rw [calculateLevel_eq_firstHit _ dflt name hv,
    calculateLevel_eq_firstHit sp dflt name hv]
  apply firstHit_congr
  intro c hc
  have hgood := goodSegs_of_valid hv
  have hcneq : c ≠ X ++ ['.'] := by
    rcases List.mem_cons.mp hc with h1 | h1
    · subst h1
      intro heq
      exact hne (List.append_inj' heq (by simp)).1
    · intro heq
      have hgl := ascPrefixes_getLast (fun s_ hs => hgood.2 s_ hs) c
        (List.mem_reverse.mp h1)
      apply hgl.2
      rw [heq]
      simp
  exact lookupA_filter_keyne sp (X ++ ['.']) c hcneq

theorem c2_witness :
    isValidLoggerName (("a.b.c").toList) = true
    ∧ (("a.b.c").toList ≠ ("a.b").toList)
    ∧ calculateLevel
        (List.filter (fun e => decide (e.1 ≠ ("a.b").toList ++ ['.']))
          [(("a.b.").toList, Level.error)])
        Level.info (("a.b.c").toList)
      = calculateLevel [(("a.b.").toList, Level.error)] Level.info
        (("a.b.c").toList) :=
  ⟨by decide, by decide,
    c2_exact_vs_prefix.2 [(("a.b.").toList, Level.error)] Level.info
      (("a.b").toList) (("a.b.c").toList) (by decide) (by decide)⟩

/-! ### Cache consistency and atomicity -/

theorem cacheConsistent_step (m : ModuleLevels) (op : Op)
    (h : CacheConsistent m) : CacheConsistent (stepOp m op) := by
  cases op with
  | activate s =>
    intro n l hl
    simp only [stepOp, ModuleLevels.ActivateSpec] at hl ⊢
    revert hl
    cases hp : parseSpec s with
    | error e => exact fun hl => h n l hl
    | ok ds =>
      obtain ⟨d, sp⟩ := ds
      intro hl
      replace hl : lookupA [] n = some l := hl
      simp [lookupA] at hl
  | level n =>
    intro n' l' hl'
    simp only [stepOp, ModuleLevels.level, ModuleLevels.cachedLevel] at hl' ⊢
    revert hl'
    cases hc : lookupA m.levelCache n with
    | some l => exact fun hl' => h n' l' hl'
    | none =>
      intro hl'
      replace hl' : lookupA (insertA n (calculateLevel m.specs m.defaultLevel n)
          m.levelCache) n' = some l' := hl'
      show l' = calculateLevel m.specs m.defaultLevel n'
      rw [lookupA_insertA] at hl'
      by_cases hn : n' = n
      · rw [if_pos hn] at hl'
        injection hl' with hl'
        subst hn
        exact hl'.symm
      · rw [if_neg hn] at hl'
        exact h n' l' hl'
  | defaultLevel => exact h
  | spec => exact h

theorem cacheConsistent_runOps (ops : List Op) : CacheConsistent (runOps ops) := by
  have hrun : ∀ (l : List Op) (m : ModuleLevels), CacheConsistent m →
      CacheConsistent (l.foldl stepOp m) := by
    intro l
    induction l with
    | nil => exact fun m h => h
    | cons op rest ih => exact fun m h => ih _ (cacheConsistent_step m op h)
  apply hrun
  intro n l hl
  simp [freshModuleLevels, lookupA] at hl

/-- C3: Cache/configuration consistency — after any sequence of public
operations from a fresh engine, every cached entry equals what the resolver
computes fresh against the active configuration; concretely, a value cached
for `"m.n"` under spec `"m.n=WARN"` is not served after `"m.n=ERROR"` is
activated: the next lookup returns ERROR. -/
theorem c3_cache_consistency :
    (∀ ops : List Op, CacheConsistent (runOps ops))
    ∧ (ModuleLevels.level
        (freshModuleLevels.ActivateSpec (("m.n=WARN").toList)).2
        (("m.n").toList)).1 = Level.warn
    ∧ (ModuleLevels.level
        ((ModuleLevels.level
            (freshModuleLevels.ActivateSpec (("m.n=WARN").toList)).2
            (("m.n").toList)).2.ActivateSpec
          (("m.n=ERROR").toList)).2
        (("m.n").toList)).1 = Level.error :=
  ⟨cacheConsistent_runOps, by decide, by decide⟩

theorem c3_witness :
    lookupA (runOps [Op.level (("x").toList)]).levelCache (("x").toList)
      = some Level.info
    ∧ Level.info = calculateLevel (runOps [Op.level (("x").toList)]).specs
        (runOps [Op.level (("x").toList)]).defaultLevel (("x").toList) :=
  ⟨by decide,
    c3_cache_consistency.1 [Op.level (("x").toList)] (("x").toList) Level.info
      (by decide)⟩

/-- C4: Atomic rejection — whenever `ActivateSpec` returns an error, the
engine state is exactly as before the call (default level, overrides and
cache all unchanged); concretely, with override `{"x": WARN}` active, a
failed `ActivateSpec("bad=segment=here")` leaves `Level("x") = WARN`. -/
theorem c4_atomic_rejection :
    (∀ (m : ModuleLevels) (s : Str),
      (m.ActivateSpec s).1.isSome = true → (m.ActivateSpec s).2 = m)
    ∧ (((freshModuleLevels.ActivateSpec ("x=WARN").toList).2.ActivateSpec
        ("bad=segment=here").toList).1.isSome = true
      ∧ (ModuleLevels.level
          ((freshModuleLevels.ActivateSpec ("x=WARN").toList).2.ActivateSpec
            ("bad=segment=here").toList).2
          (("x").toList)).1 = Level.warn) := by
  refine ⟨fun m s h => ?_, by decide, by decide⟩
  unfold ModuleLevels.ActivateSpec at h ⊢
  cases hp : parseSpec s with
  | error e => rfl
  | ok ds =>
    rw [hp] at h
    obtain ⟨d, sp⟩ := ds
    simp at h

theorem c4_witness :
    (((freshModuleLevels.ActivateSpec ("x=WARN").toList).2.ActivateSpec
      ("bad=segment=here").toList).1.isSome = true)
    ∧ ((freshModuleLevels.ActivateSpec ("x=WARN").toList).2.ActivateSpec
        ("bad=segment=here").toList).2
      = (freshModuleLevels.ActivateSpec ("x=WARN").toList).2 :=
  ⟨by decide,
    c4_atomic_rejection.1 (freshModuleLevels.ActivateSpec ("x=WARN").toList).2
      ("bad=segment=here").toList (by decide)⟩

/-! ### Error conditions of ActivateSpec -/

theorem splitOn_singleton_eq {c : Char} {s x : Str}
    (h : splitOn c s = [x]) : x = s := by
  have hj := joinSep_splitOn c s
  rw [h] at hj
  simpa [joinSep] using hj

theorem processLoggers_err {spec : Str} {lvl : Level} :
    ∀ (loggers : List Str),
      (∃ lg ∈ loggers, isValidLoggerName (trimSuffixDot lg) = false) →
      ∀ sp, ∃ e, processLoggers spec lvl sp loggers = .error e := by
  intro loggers
  induction loggers with
  | nil => rintro ⟨lg, hlg, _⟩; simp at hlg
  | cons lg rest ih =>
    rintro ⟨lg', hlg', hbad⟩ sp
    by_cases hv : isValidLoggerName (trimSuffixDot lg) = true
    · rcases List.mem_cons.mp hlg' with h1 | h1
      · subst h1
        rw [hv] at hbad
        cases hbad
      · obtain ⟨e, he⟩ := ih ⟨lg', h1, hbad⟩ (insertA lg lvl sp)
        exact ⟨e, by simp [processLoggers, hv, he]⟩
    · exact ⟨.badLoggerName spec lg, by simp [processLoggers, hv]⟩

theorem processField_eq_one {spec : Str} {acc : Level × SpecMap} {f x : Str}
    (hsp : splitOn '=' f = [x]) :
    processField spec acc f =
      if f ≠ [] ∧ IsValidLevel f = false then .error (.badSegment spec f)
      else .ok (NameToLevel f, acc.2) := by
  unfold processField
  rw [hsp]

theorem processField_eq_two {spec : Str} {acc : Level × SpecMap} {f l r : Str}
    (hsp : splitOn '=' f = [l, r]) :
    processField spec acc f =
      if l = [] then .error (.noLoggerSpecified spec f)
      else if f ≠ [] ∧ IsValidLevel r = false then .error (.badSegment spec f)
      else
        match processLoggers spec (NameToLevel r) acc.2 (splitOn ',' l) with
        | .ok sp => .ok (acc.1, sp)
        | .error e => .error e := by
  unfold processField
  rw [hsp]

theorem processField_eq_more {spec : Str} {acc : Level × SpecMap}
    {f a b c : Str} {ds : List Str} (hsp : splitOn '=' f = a :: b :: c :: ds) :
    processField spec acc f = .error (.badSegment spec f) := by
  unfold processField
  rw [hsp]

theorem processField_err {f : Str} (h : badSeg f) (spec : Str) :
    ∀ acc, ∃ e, processField spec acc f = .error e := by
  intro acc
  unfold badSeg at h
  cases hsp : splitOn '=' f with
  | nil => exact absurd hsp (splitOn_ne_nil '=' f)
  | cons a bs =>
    cases bs with
    | nil =>
      rw [hsp] at h
      have hx : a = f := splitOn_singleton_eq hsp
      subst hx
      rw [processField_eq_one hsp, if_pos h]
      exact ⟨.badSegment spec a, rfl⟩
    | cons b cs =>
      cases cs with
      | nil =>
        rw [hsp] at h
        rw [processField_eq_two hsp]
        rcases h with h1 | h1 | h1
        · rw [if_pos h1]
          exact ⟨.noLoggerSpecified spec f, rfl⟩
        · by_cases h2 : a = []
          · rw [if_pos h2]
            exact ⟨.noLoggerSpecified spec f, rfl⟩
          · rw [if_neg h2]
            by_cases h3 : f ≠ [] ∧ IsValidLevel b = false
            · rw [if_pos h3]
              exact ⟨.badSegment spec f, rfl⟩
            · rw [if_neg h3]
              obtain ⟨e, he⟩ := processLoggers_err (splitOn ',' a) h1 acc.2
              exact ⟨e, by rw [he]⟩
        · by_cases h2 : a = []
          · rw [if_pos h2]
            exact ⟨.noLoggerSpecified spec f, rfl⟩
          · rw [if_neg h2]
            have hfne : f ≠ [] := by
              intro hf
              rw [hf] at hsp
              simp [splitOn] at hsp
            rw [if_pos ⟨hfne, h1.2⟩]
            exact ⟨.badSegment spec f, rfl⟩
      | cons d ds =>
        rw [processField_eq_more hsp]
        exact ⟨.badSegment spec f, rfl⟩

theorem processFields_err {spec : Str} :
    ∀ (fields : List Str), (∃ f ∈ fields, badSeg f) →
      ∀ acc, ∃ e, processFields spec acc fields = .error e := by
  intro fields
  induction fields with
  | nil => rintro ⟨f, hf, _⟩; simp at hf
  | cons f rest ih =>
    rintro ⟨f', hf', hbad⟩ acc
    rcases List.mem_cons.mp hf' with h1 | h1
    · subst h1
      obtain ⟨e, he⟩ := processField_err hbad spec acc
      exact ⟨e, by simp [processFields, he]⟩
    · cases hpf : processField spec acc f with
      | error e => exact ⟨e, by simp [processFields, hpf]⟩
      | ok acc' =>
        obtain ⟨e, he⟩ := ih ⟨f', h1, hbad⟩ acc'
        exact ⟨e, by simp [processFields, hpf, he]⟩

/-- C6: Error conditions — `ActivateSpec` returns an error whenever any
`':'`-separated segment is bad in the claim's sense (more than one `'='`;
an `'='` with an empty logger list; a comma-separated logger key failing
the syntax check after stripping at most one trailing period; a non-empty
level field that is not a recognized spelling); in particular
`ActivateSpec("bad..name=INFO")` is rejected.  `Level` and `Spec` never
fail: in the embedding they are total functions returning a value for
every state and input. -/
theorem c6_error_conditions :
    (∀ (m : ModuleLevels) (s : Str), (∃ f ∈ splitOn ':' s, badSeg f) →
      (m.ActivateSpec s).1.isSome = true)
    ∧ (∀ m : ModuleLevels,
        (m.ActivateSpec (("bad..name=INFO").toList)).1.isSome = true)
    ∧ (∀ (m : ModuleLevels) (n : Str),
        ∃ (l : Level) (m' : ModuleLevels), m.level n = (l, m'))
    ∧ (∀ m : ModuleLevels, ∃ s : Str, m.Spec = s) := by
  have hgen : ∀ (m : ModuleLevels) (s : Str), (∃ f ∈ splitOn ':' s, badSeg f) →
      (m.ActivateSpec s).1.isSome = true := by
    intro m s hbad
    obtain ⟨e, he⟩ := processFields_err (splitOn ':' s) hbad (Level.info, [])
    unfold ModuleLevels.ActivateSpec parseSpec
    rw [he]
    rfl
  refine ⟨hgen, fun m => hgen m _ ?_, fun m n => ⟨_, _, rfl⟩, fun m => ⟨_, rfl⟩⟩
  decide

theorem c6_witness :
    (freshModuleLevels.ActivateSpec (("x==").toList)).1.isSome = true :=
  c6_error_conditions.1 freshModuleLevels (("x==").toList) (by decide)

/-! ### Default-level segments -/

theorem calcLoop_nil (d : Level) : ∀ (f : Nat) (c : Str), calcLoop [] d f c = d := by
  intro f
  induction f with
  | zero => intro c; rfl
  | succ g ih =>
    intro c
    cases hi : lastIdx '.' c with
    | none => simp [calcLoop, lookupA, hi]
    | some idx =>
      cases idx with
      | zero => simp [calcLoop, lookupA, hi]
      | succ j =>
        simp only [calcLoop, lookupA, hi]
        exact ih _

theorem processField_ok_shape {spec : Str} {acc acc' : Level × SpecMap} {f : Str}
    (h : processField spec acc f = .ok acc') :
    ((splitOn '=' f).length = 1 ∧ acc' = (NameToLevel f, acc.2))
    ∨ ((splitOn '=' f).length = 2 ∧ acc'.1 = acc.1) := by
  cases hsp : splitOn '=' f with
  | nil => exact absurd hsp (splitOn_ne_nil '=' f)
  | cons a bs =>
    cases bs with
    | nil =>
      rw [processField_eq_one hsp] at h
      by_cases hc : f ≠ [] ∧ IsValidLevel f = false
      · rw [if_pos hc] at h
        exact Except.noConfusion h
      · rw [if_neg hc] at h
        injection h with h
        exact Or.inl ⟨by simp, h.symm⟩
    | cons b cs =>
      cases cs with
      | nil =>
        rw [processField_eq_two hsp] at h
        by_cases h1 : a = []
        · rw [if_pos h1] at h
          exact Except.noConfusion h
        · rw [if_neg h1] at h
          by_cases h2 : f ≠ [] ∧ IsValidLevel b = false
          · rw [if_pos h2] at h
            exact Except.noConfusion h
          · rw [if_neg h2] at h
            cases hpl : processLoggers spec (NameToLevel b) acc.2 (splitOn ',' a) with
            | ok sp2 =>
              rw [hpl] at h
              replace h : (Except.ok (acc.1, sp2) :
                  Except SpecErr (Level × SpecMap)) = Except.ok acc' := h
              injection h with h
              exact Or.inr ⟨by simp, by rw [← h]⟩
            | error e =>
              rw [hpl] at h
              exact Except.noConfusion h
      | cons d ds =>
        rw [processField_eq_more hsp] at h
        exact Except.noConfusion h

theorem processFields_default {spec : Str} :
    ∀ (fields : List Str) (acc : Level × SpecMap) (d : Level) (sp : SpecMap),
      processFields spec acc fields = .ok (d, sp) →
      d = (match (fields.filter
            (fun g => (splitOn '=' g).length = 1)).getLast? with
          | some g => NameToLevel g
          | none => acc.1) := by
  intro fields
  induction fields with
  | nil =>
    intro acc d sp h
    replace h : (Except.ok acc : Except SpecErr (Level × SpecMap))
        = Except.ok (d, sp) := h
    injection h with h
    simp [h]
  | cons f rest ih =>
    intro acc d sp h
    simp only [processFields] at h
    cases hpf : processField spec acc f with
    | error e =>
      rw [hpf] at h
      exact Except.noConfusion h
    | ok acc' =>
      rw [hpf] at h
      replace h : processFields spec acc' rest = .ok (d, sp) := h
      have hd := ih acc' d sp h
      rcases processField_ok_shape hpf with ⟨hlen, hval⟩ | ⟨hlen, hval⟩
      · have hfl : (f :: rest).filter (fun g => decide ((splitOn '=' g).length = 1))
            = f :: rest.filter (fun g => decide ((splitOn '=' g).length = 1)) := by
          simp [List.filter_cons, hlen]
        rw [hfl]
        cases hrf : rest.filter (fun g => decide ((splitOn '=' g).length = 1)) with
        | nil =>
          rw [hrf] at hd
          rw [hval] at hd
          simpa using hd
        | cons q qs =>
          rw [hrf] at hd
          have hgl : (f :: q :: qs).getLast? = (q :: qs).getLast? :=
            List.getLast?_append_of_ne_nil [f] (by simp)
          rw [hgl]
          cases hq : (q :: qs).getLast? with
          | none => simp at hq
          | some g =>
            rw [hq] at hd
            exact hd
      · have hfl : (f :: rest).filter (fun g => decide ((splitOn '=' g).length = 1))
            = rest.filter (fun g => decide ((splitOn '=' g).length = 1)) := by
          simp [List.filter_cons, hlen]
        rw [hfl]
        rw [hval] at hd
        exact hd

/-- C7: Default-level segments — a segment with no `'='` sets the default
level and the last such segment wins; `ActivateSpec("DEBUG")` succeeds with
default DEBUG and no overrides, after which `DefaultLevel()` is DEBUG and
`Level(name)` is DEBUG for every name. -/
theorem c7_default_segments :
    ((freshModuleLevels.ActivateSpec (("DEBUG").toList)).1 = none
      ∧ (freshModuleLevels.ActivateSpec (("DEBUG").toList)).2.defaultLevel
          = Level.debug
      ∧ (freshModuleLevels.ActivateSpec (("DEBUG").toList)).2.specs = []
      ∧ (freshModuleLevels.ActivateSpec (("DEBUG").toList)).2.DefaultLevel
          = Level.debug
      ∧ ∀ name : Str,
          (ModuleLevels.level (freshModuleLevels.ActivateSpec
            (("DEBUG").toList)).2 name).1 = Level.debug)
    ∧ ∀ (s : Str) (d : Level) (sp : SpecMap), parseSpec s = .ok (d, sp) →
        d = (match lastDefaultSeg s with
            | some g => NameToLevel g
            | none => Level.info) := by
  constructor
  · refine ⟨by decide, by decide, by decide, by decide, fun name => ?_⟩
    have hstate : (freshModuleLevels.ActivateSpec (("DEBUG").toList)).2
        = ⟨Level.debug, [], []⟩ := by decide
    rw [hstate]
    simp [ModuleLevels.level, ModuleLevels.cachedLevel, lookupA,
      calculateLevel, calcLoop_nil]
  · intro s d sp h
    unfold parseSpec at h
    unfold lastDefaultSeg
    exact processFields_default (splitOn ':' s) (Level.info, []) d sp h

theorem c7_witness :
    parseSpec (("WARN:DEBUG").toList) = .ok (Level.debug, [])
    ∧ Level.debug = (match lastDefaultSeg (("WARN:DEBUG").toList) with
        | some g => NameToLevel g
        | none => Level.info) :=
  ⟨by rfl,
    c7_default_segments.2 (("WARN:DEBUG").toList) Level.debug [] (by rfl)⟩

/-! ### Duplicate keys: the rightmost assignment wins -/

theorem lookupA_append (X Y : SpecMap) (k : Str) :
    lookupA (X ++ Y) k =
      match lookupA X k with
      | some v => some v
      | none => lookupA Y k := by
  induction X with
  | nil => rfl
  | cons e rest ih =>
    obtain ⟨k', v'⟩ := e
    by_cases hk : k' = k
    · simp [lookupA, hk]
    · simp [lookupA, hk, ih]

theorem lookupA_const_map (L : List Str) (v : Level) (k : Str) :
    lookupA (L.map (fun lg => (lg, v))) k =
      if k ∈ L then some v else none := by
  induction L with
  | nil => rfl
  | cons lg rest ih =>
    by_cases hk : lg = k
    · simp [lookupA, hk]
    · have hne : ¬k = lg := fun h => hk h.symm
      simp [lookupA, hk, hne, ih]

theorem lastAssign_append (A B : List (Str × Level)) (k : Str) :
    lastAssign (A ++ B) k =
      match lastAssign B k with
      | some v => some v
      | none => lastAssign A k := by
  unfold lastAssign
  rw [List.reverse_append, lookupA_append]

theorem lastAssign_const_map (L : List Str) (v : Level) (k : Str) :
    lastAssign (L.map (fun lg => (lg, v))) k =
      if k ∈ L then some v else none := by
  unfold lastAssign
  rw [← List.map_reverse, lookupA_const_map]
  by_cases hk : k ∈ L <;> simp [hk]

theorem processLoggers_lookup {spec : Str} {lvl : Level} :
    ∀ (loggers : List Str) (sp sp' : SpecMap),
      processLoggers spec lvl sp loggers = .ok sp' →
      ∀ k, lookupA sp' k = if k ∈ loggers then some lvl else lookupA sp k := by
  intro loggers
  induction loggers with
  | nil =>
    intro sp sp' h k
    replace h : (Except.ok sp : Except SpecErr SpecMap) = Except.ok sp' := h
    injection h with h
    simp [h]
  | cons lg rest ih =>
    intro sp sp' h k
    by_cases hv : isValidLoggerName (trimSuffixDot lg) = true
    · rw [show processLoggers spec lvl sp (lg :: rest)
          = processLoggers spec lvl (insertA lg lvl sp) rest from by
        simp [processLoggers, hv]] at h
      rw [ih _ _ h k, lookupA_insertA]
      by_cases h1 : k ∈ rest
      · simp [h1]
      · by_cases h2 : k = lg
        · simp [h1, h2]
        · simp [h1, h2]
    · exfalso
      rw [show processLoggers spec lvl sp (lg :: rest)
          = .error (.badLoggerName spec lg) from by
        simp [processLoggers, hv]] at h
      exact Except.noConfusion h

theorem fieldAssigns_eq_one {f x : Str} (hsp : splitOn '=' f = [x]) :
    fieldAssigns f = [] := by
  unfold fieldAssigns
  rw [hsp]

theorem fieldAssigns_eq_two {f l r : Str} (hsp : splitOn '=' f = [l, r]) :
    fieldAssigns f = (splitOn ',' l).map (fun lg => (lg, NameToLevel r)) := by
  unfold fieldAssigns
  rw [hsp]

theorem fieldAssigns_eq_more {f a b c : Str} {ds : List Str}
    (hsp : splitOn '=' f = a :: b :: c :: ds) : fieldAssigns f = [] := by
  unfold fieldAssigns
  rw [hsp]

theorem processField_ok_one {spec : Str} {acc acc' : Level × SpecMap}
    {f x : Str} (hsp : splitOn '=' f = [x])
    (h : processField spec acc f = .ok acc') : acc' = (NameToLevel f, acc.2) := by
  rw [processField_eq_one hsp] at h
  by_cases hc : f ≠ [] ∧ IsValidLevel f = false
  · rw [if_pos hc] at h
    exact Except.noConfusion h
  · rw [if_neg hc] at h
    injection h with h
    exact h.symm

theorem processField_ok_two {spec : Str} {acc acc' : Level × SpecMap}
    {f l r : Str} (hsp : splitOn '=' f = [l, r])
    (h : processField spec acc f = .ok acc') :
    acc'.1 = acc.1
    ∧ processLoggers spec (NameToLevel r) acc.2 (splitOn ',' l) = .ok acc'.2 := by
  rw [processField_eq_two hsp] at h
  by_cases h1 : l = []
  · rw [if_pos h1] at h
    exact Except.noConfusion h
  · rw [if_neg h1] at h
    by_cases h2 : f ≠ [] ∧ IsValidLevel r = false
    · rw [if_pos h2] at h
      exact Except.noConfusion h
    · rw [if_neg h2] at h
      cases hpl : processLoggers spec (NameToLevel r) acc.2 (splitOn ',' l) with
      | ok sp2 =>
        rw [hpl] at h
        replace h : (Except.ok (acc.1, sp2) :
            Except SpecErr (Level × SpecMap)) = Except.ok acc' := h
        injection h with h
        exact ⟨by rw [← h], by rw [← h]⟩
      | error e =>
        rw [hpl] at h
        exact Except.noConfusion h

theorem processFields_lookup {spec : Str} :
    ∀ (fields : List Str) (acc : Level × SpecMap) (d : Level) (sp : SpecMap),
      processFields spec acc fields = .ok (d, sp) →
      ∀ k, lookupA sp k =
        match lastAssign ((fields.map fieldAssigns).flatten) k with
        | some v => some v
        | none => lookupA acc.2 k := by
  intro fields
  induction fields with
  | nil =>
    intro acc d sp h k
    replace h : (Except.ok acc : Except SpecErr (Level × SpecMap))
        = Except.ok (d, sp) := h
    injection h with h
    simp [lastAssign, lookupA, h]
  | cons f rest ih =>
    intro acc d sp h k
    simp only [processFields] at h
    cases hpf : processField spec acc f with
    | error e =>
      rw [hpf] at h
      exact Except.noConfusion h
    | ok acc' =>
      rw [hpf] at h
      replace h : processFields spec acc' rest = .ok (d, sp) := h
      have hrest := ih acc' d sp h k
      have hfield : lookupA acc'.2 k =
          match lastAssign (fieldAssigns f) k with
          | some v => some v
          | none => lookupA acc.2 k := by
        cases hsp : splitOn '=' f with
        | nil => exact absurd hsp (splitOn_ne_nil '=' f)
        | cons a bs =>
          cases bs with
          | nil =>
            rw [processField_ok_one hsp hpf, fieldAssigns_eq_one hsp]
            rfl
          | cons b cs =>
            cases cs with
            | nil =>
              have h2 := processField_ok_two hsp hpf
              rw [fieldAssigns_eq_two hsp, lastAssign_const_map,
                processLoggers_lookup (splitOn ',' a) acc.2 acc'.2 h2.2 k]
              by_cases hm : k ∈ splitOn ',' a <;> simp [hm]
            | cons c ds =>
              rw [processField_eq_more hsp] at hpf
              exact Except.noConfusion hpf
      rw [List.map_cons, List.flatten_cons, lastAssign_append]
      rw [hrest, hfield]
      cases lastAssign ((rest.map fieldAssigns).flatten) k <;>
        cases lastAssign (fieldAssigns f) k <;> simp

/-- C10: Duplicate keys, last wins — when the same logger key is assigned
more than once in one spec string, a successful `ActivateSpec` stores the
rightmost assignment; concretely `ActivateSpec("a=ERROR:a=DEBUG")` succeeds
and `Level("a")` is DEBUG; in general the stored binding of every key is
the last assignment to it in left-to-right scan order. -/
theorem c10_last_wins :
    ((freshModuleLevels.ActivateSpec (("a=ERROR:a=DEBUG").toList)).1 = none
      ∧ (ModuleLevels.level
          (freshModuleLevels.ActivateSpec (("a=ERROR:a=DEBUG").toList)).2
          (("a").toList)).1 = Level.debug)
    ∧ ∀ (s : Str) (d : Level) (sp : SpecMap), parseSpec s = .ok (d, sp) →
        ∀ k, lookupA sp k = lastAssign (specAssigns s) k := by
  refine ⟨⟨by decide, by decide⟩, fun s d sp h k => ?_⟩
  unfold parseSpec at h
  have := processFields_lookup (splitOn ':' s) (Level.info, []) d sp h k
  rw [this]
  show _ = lastAssign ((splitOn ':' s).map fieldAssigns).flatten k
  cases lastAssign ((splitOn ':' s).map fieldAssigns).flatten k <;>
    simp [lookupA]

theorem c10_witness :
    parseSpec (("a=ERROR:a=DEBUG").toList)
      = .ok (Level.info, [(("a").toList, Level.debug)])
    ∧ lookupA [(("a").toList, Level.debug)] (("a").toList)
      = lastAssign (specAssigns (("a=ERROR:a=DEBUG").toList)) (("a").toList) :=
  ⟨by rfl,
    c10_last_wins.2 (("a=ERROR:a=DEBUG").toList) Level.info
      [(("a").toList, Level.debug)] (by rfl) (("a").toList)⟩

/-! ### The empty level field -/

/-- C9 counterexample: the claim says `ActivateSpec("a=")` succeeds; in fact
the segment `"a="` is non-empty, so the level validity check runs on the
empty level field, which is not a recognized spelling, and the call is
rejected. -/
theorem c9_counterexample :
    (freshModuleLevels.ActivateSpec (("a=").toList)).1.isSome = true := by
  decide

/-- C9 (amended): an empty level field is accepted only in a segment with
no `'='` — an empty segment sets the default to the neutral level (info) —
while a `loggers=` segment with an empty right-hand side is always
rejected (the segment is non-empty, so the validity check applies to the
empty level name, which is not a recognized spelling); in particular
`ActivateSpec("a=")` fails. -/
theorem c9_empty_level_amended :
    (∀ (spec : Str) (acc : Level × SpecMap),
      processField spec acc [] = .ok (Level.info, acc.2))
    ∧ (∀ (spec : Str) (acc : Level × SpecMap) (l : Str), l ≠ [] → '=' ∉ l →
        processField spec acc (l ++ ['='])
          = .error (.badSegment spec (l ++ ['='])))
    ∧ (freshModuleLevels.ActivateSpec (("a=").toList)).1
        = some (.badSegment (("a=").toList) (("a=").toList)) := by
  refine ⟨fun spec acc => rfl, fun spec acc l hne hnem => ?_, by decide⟩
  have hsp : splitOn '=' (l ++ ['=']) = [l, []] := by
    rw [show l ++ ['='] = l ++ '=' :: [] from rfl, splitOn_append_sep hnem]
    rfl
  rw [processField_eq_two hsp, if_neg hne]
  rw [if_pos ⟨by simp, rfl⟩]

theorem c9_witness :
    processField (("a=").toList) (Level.info, []) (("a").toList ++ ['='])
      = .error (.badSegment (("a=").toList) (("a").toList ++ ['='])) :=
  c9_empty_level_amended.2.1 (("a=").toList) (Level.info, []) (("a").toList)
    (by decide) (by decide)

/-! ### Canonical serialization -/

theorem strLe_total : ∀ a b : Str, strLe a b = true ∨ strLe b a = true := by
  intro a
  induction a with
  | nil => intro b; left; rfl
  | cons x xs ih =>
    intro b
    cases b with
    | nil => right; rfl
    | cons y ys =>
      by_cases h1 : x.toNat < y.toNat
      · left
        simp [strLe, h1]
      · by_cases h2 : y.toNat < x.toNat
        · right
          simp [strLe, h2]
        · rcases ih ys with h | h
          · left
            simp [strLe, h1, h2, h]
          · right
            simp [strLe, h1, h2, h]

theorem strLe_antisymm : ∀ a b : Str, strLe a b = true → strLe b a = true →
    a = b := by
  intro a
  induction a with
  | nil =>
    intro b _ hba
    cases b with
    | nil => rfl
    | cons y ys => simp [strLe] at hba
  | cons x xs ih =>
    intro b hab hba
    cases b with
    | nil => simp [strLe] at hab
    | cons y ys =>
      by_cases h1 : x.toNat < y.toNat
      · have : ¬y.toNat < x.toNat := by omega
        simp [strLe, this, h1] at hba
      · by_cases h2 : y.toNat < x.toNat
        · simp [strLe, h1, h2] at hab
        · have hxy : x = y := by
            have hn : x.toNat = y.toNat := by omega
            exact Char.ext (UInt32.ext hn)
          subst hxy
          simp [strLe, h1, h2] at hab hba
          rw [ih ys hab hba]

theorem strLe_trans : ∀ a b c : Str, strLe a b = true → strLe b c = true →
    strLe a c = true := by
  intro a
  induction a with
  | nil => intro b c _ _; rfl
  | cons x xs ih =>
    intro b c hab hbc
    cases b with
    | nil => simp [strLe] at hab
    | cons y ys =>
      cases c with
      | nil => simp [strLe] at hbc
      | cons z zs =>
        simp only [strLe] at hab hbc ⊢
        by_cases hxy : x.toNat < y.toNat
        · have hzy : ¬z.toNat < y.toNat := by
            intro hzy
            simp [show ¬y.toNat < z.toNat from by omega, hzy] at hbc
          simp [show x.toNat < z.toNat from by omega]
        · by_cases hyx : y.toNat < x.toNat
          · simp [hxy, hyx] at hab
          · simp [hxy, hyx] at hab
            by_cases hyz : y.toNat < z.toNat
            · simp [show x.toNat < z.toNat from by omega]
            · by_cases hzy : z.toNat < y.toNat
              · simp [hyz, hzy] at hbc
              · simp [hyz, hzy] at hbc
                simp [show ¬x.toNat < z.toNat from by omega,
                  show ¬z.toNat < x.toNat from by omega]
                exact ih ys zs hab hbc

theorem mem_insertSorted {x a : Str} :
    ∀ l : List Str, a ∈ insertSorted x l ↔ a = x ∨ a ∈ l := by
  intro l
  induction l with
  | nil => simp [insertSorted]
  | cons y ys ih =>
    by_cases h : strLe x y = true
    · simp [insertSorted, h]
    · simp only [insertSorted, if_neg h, List.mem_cons, ih]
      tauto

theorem insertSorted_pairwise {x : Str} :
    ∀ {l : List Str}, List.Pairwise (fun a b => strLe a b = true) l →
      List.Pairwise (fun a b => strLe a b = true) (insertSorted x l) := by
  intro l
  induction l with
  | nil => intro _; simp [insertSorted]
  | cons y ys ih =>
    intro hp
    have hpc := List.pairwise_cons.mp hp
    by_cases h : strLe x y = true
    · rw [insertSorted, if_pos h]
      apply List.pairwise_cons.mpr
      refine ⟨?_, hp⟩
      intro b hb
      rcases List.mem_cons.mp hb with hb1 | hb1
      · exact hb1 ▸ h
      · exact strLe_trans x y b h (hpc.1 b hb1)
    · rw [insertSorted, if_neg h]
      apply List.pairwise_cons.mpr
      constructor
      · intro b hb
        rcases (mem_insertSorted ys).mp hb with hb1 | hb1
        · subst hb1
          rcases strLe_total b y with h2 | h2
          · exact absurd h2 h
          · exact h2
        · exact hpc.1 b hb1
      · exact ih hpc.2

theorem insertSorted_perm (x : Str) :
    ∀ l : List Str, (insertSorted x l).Perm (x :: l) := by
  intro l
  induction l with
  | nil => simp [insertSorted]
  | cons y ys ih =>
    by_cases h : strLe x y = true
    · rw [insertSorted, if_pos h]
    · rw [insertSorted, if_neg h]
      exact (ih.cons y).trans (List.Perm.swap x y ys)

theorem sortStrs_perm : ∀ l : List Str, (sortStrs l).Perm l := by
  intro l
  induction l with
  | nil => rfl
  | cons x xs ih =>
    exact (insertSorted_perm x (sortStrs xs)).trans (ih.cons x)

theorem sortStrs_pairwise :
    ∀ l : List Str, List.Pairwise (fun a b => strLe a b = true) (sortStrs l) := by
  intro l
  induction l with
  | nil => simp [sortStrs]
  | cons x xs ih => exact insertSorted_pairwise ih

instance : IsAntisymm Str (fun a b => strLe a b = true) := ⟨strLe_antisymm⟩

theorem sortStrs_congr_perm {l1 l2 : List Str} (h : l1.Perm l2) :
    sortStrs l1 = sortStrs l2 :=
  List.eq_of_perm_of_sorted
    (((sortStrs_perm l1).trans h).trans (sortStrs_perm l2).symm)
    (sortStrs_pairwise l1) (sortStrs_pairwise l2)

/-- C8 counterexample: the claim says the `key=level` fields are
lexicographically sorted by *key*; the code sorts the whole rendered
`"key=level"` strings.  With overrides on keys `"a"` and `"a1"` the orders
differ, because `'1'` compares below `'='`: the code renders
`"a1=info:a=info:info"`, while sorting by key would render
`"a=info:a1=info:info"`. -/
theorem c8_counterexample :
    ModuleLevels.Spec
        ⟨Level.info, [], [(("a").toList, Level.info), (("a1").toList, Level.info)]⟩
      ≠ claimRender
        ⟨Level.info, [], [(("a").toList, Level.info), (("a1").toList, Level.info)]⟩ := by
  decide

/-- C8 (amended): `Spec()` returns one `key=level` field per override,
lexicographically sorted by the entire rendered `"key=level"` string (this
agrees with sorting by key except when one key extends another, since the
`'='` terminator takes part in the comparison), joined with `':'` and
followed by the default level's name as the final field; the output is
deterministic — permuting the override entries never changes it. -/
theorem c8_canonical_serialization :
    (∀ m : ModuleLevels, ∃ fl : List Str,
        m.Spec = joinSep ':' (fl ++ [m.defaultLevel.toName])
        ∧ fl.Perm (m.specs.map renderField)
        ∧ List.Pairwise (fun a b => strLe a b = true) fl)
    ∧ (∀ m1 m2 : ModuleLevels, m1.specs.Perm m2.specs →
        m1.defaultLevel = m2.defaultLevel → m1.Spec = m2.Spec) := by
  constructor
  · intro m
    exact ⟨sortStrs (m.specs.map renderField), rfl,
      sortStrs_perm _, sortStrs_pairwise _⟩
  · intro m1 m2 hperm hd
    unfold ModuleLevels.Spec
    rw [hd, sortStrs_congr_perm (hperm.map renderField)]

theorem c8_witness :
    ([(("b").toList, Level.warn), (("a").toList, Level.debug)] : SpecMap).Perm
      [(("a").toList, Level.debug), (("b").toList, Level.warn)]
    ∧ ModuleLevels.Spec
        ⟨Level.info, [], [(("b").toList, Level.warn), (("a").toList, Level.debug)]⟩
      = ModuleLevels.Spec
        ⟨Level.info, [], [(("a").toList, Level.debug), (("b").toList, Level.warn)]⟩ :=
  ⟨List.Perm.swap _ _ _,
    c8_canonical_serialization.2
      ⟨Level.info, [], [(("b").toList, Level.warn), (("a").toList, Level.debug)]⟩
      ⟨Level.info, [], [(("a").toList, Level.debug), (("b").toList, Level.warn)]⟩
      (List.Perm.swap _ _ _) rfl⟩

/-! ### Round-trip: Spec() re-parses to an equivalent configuration -/

theorem toName_ne_nil : ∀ v : Level, v.toName ≠ [] := by
  intro v
  cases v <;> decide

theorem colon_not_mem_toName : ∀ v : Level, ':' ∉ v.toName := by
  intro v
  cases v <;> decide

theorem eq_not_mem_toName : ∀ v : Level, '=' ∉ v.toName := by
  intro v
  cases v <;> decide

theorem comma_not_mem_toName : ∀ v : Level, ',' ∉ v.toName := by
  intro v
  cases v <;> decide

theorem NameToLevel_goodVal (s : Str) : GoodVal (NameToLevel s) := by
  unfold NameToLevel nameToLevel?
  cases hl : lookupA levelNames s with
  | none =>
    unfold GoodVal
    decide
  | some v =>
    have hmem := lookupA_some_mem hl
    have hall : ∀ p ∈ levelNames, GoodVal p.2 := by
      unfold GoodVal
      decide
    exact hall (s, v) hmem

theorem mem_insertA {e : Str × Level} {k : Str} {v : Level} {m : SpecMap}
    (h : e ∈ insertA k v m) : e = (k, v) ∨ e ∈ m := by
  unfold insertA at h
  rcases List.mem_cons.mp h with h1 | h1
  · exact Or.inl h1
  · exact Or.inr (List.mem_filter.mp h1).1

theorem keysNodup_perm {l1 l2 : SpecMap} (h : KeysNodup l1) (hp : l1.Perm l2) :
    KeysNodup l2 := by
  unfold KeysNodup at h ⊢
  exact h.perm (hp.map Prod.fst)

theorem lookupA_perm_nodup {l1 l2 : SpecMap} (hnd : KeysNodup l1)
    (hp : l1.Perm l2) : ∀ k, lookupA l1 k = lookupA l2 k := by
  intro k
  cases hl : lookupA l1 k with
  | some v =>
    have hmem := lookupA_some_mem hl
    exact (lookupA_of_mem_nodup (keysNodup_perm hnd hp) (hp.mem_iff.mp hmem)).symm
  | none =>
    have hk := lookupA_eq_none_iff.mp hl
    have : k ∉ l2.map Prod.fst := by
      intro hmem
      exact hk ((hp.map Prod.fst).mem_iff.mpr hmem)
    exact (lookupA_eq_none_iff.mpr this).symm

theorem calcLoop_congr {sp1 sp2 : SpecMap}
    (h : ∀ c, lookupA sp1 c = lookupA sp2 c) (d : Level) :
    ∀ (f : Nat) (c : Str), calcLoop sp1 d f c = calcLoop sp2 d f c := by
  intro f
  induction f with
  | zero => intro c; rfl
  | succ g ih =>
    intro c
    simp only [calcLoop, h c]
    cases lookupA sp2 c with
    | some l => rfl
    | none =>
      cases lastIdx '.' c with
      | none => rfl
      | some idx =>
        cases idx with
        | zero => rfl
        | succ j => exact ih _

theorem processFields_append {spec : Str} :
    ∀ (A B : List Str) (acc : Level × SpecMap),
      processFields spec acc (A ++ B) =
        match processFields spec acc A with
        | .ok acc' => processFields spec acc' B
        | .error e => .error e := by
  intro A
  induction A with
  | nil => intro B acc; rfl
  | cons f rest ih =>
    intro B acc
    simp only [List.cons_append, processFields]
    cases processField spec acc f with
    | ok acc' => exact ih B acc'
    | error e => rfl

theorem flatten_map_singleton (l : SpecMap) :
    (l.map (fun e => [e])).flatten = l := by
  induction l with
  | nil => rfl
  | cons e rest ih => simp [ih]

theorem processLoggers_good {spec : Str} {lvl : Level} :
    ∀ (loggers : List Str) (sp sp' : SpecMap),
      processLoggers spec lvl sp loggers = .ok sp' →
      (∀ e ∈ sp, GoodKey e.1 ∧ GoodVal e.2) → KeysNodup sp → GoodVal lvl →
      (∀ lg ∈ loggers, ':' ∉ lg ∧ ',' ∉ lg ∧ '=' ∉ lg) →
      (∀ e ∈ sp', GoodKey e.1 ∧ GoodVal e.2) ∧ KeysNodup sp' := by
  intro loggers
  induction loggers with
  | nil =>
    intro sp sp' h hg hnd _ _
    replace h : (Except.ok sp : Except SpecErr SpecMap) = .ok sp' := h
    injection h with h
    exact h ▸ ⟨hg, hnd⟩
  | cons lg rest ih =>
    intro sp sp' h hg hnd hlv hsep
    by_cases hv : isValidLoggerName (trimSuffixDot lg) = true
    · rw [show processLoggers spec lvl sp (lg :: rest)
          = processLoggers spec lvl (insertA lg lvl sp) rest from by
        simp [processLoggers, hv]] at h
      refine ih _ _ h ?_ (keysNodup_insertA _ _ hnd) hlv
        (fun x hx => hsep x (List.mem_cons_of_mem _ hx))
      intro e he
      rcases mem_insertA he with he1 | he1
      · subst he1
        have hlgne : lg ≠ [] := by
          intro h0
          rw [h0] at hv
          exact absurd hv (by decide)
        have hs := hsep lg (List.mem_cons_self _ _)
        exact ⟨⟨hlgne, hs.1, hs.2.1, hs.2.2, hv⟩, hlv⟩
      · exact hg e he1
    · exfalso
      rw [show processLoggers spec lvl sp (lg :: rest)
          = .error (.badLoggerName spec lg) from by
        simp [processLoggers, hv]] at h
      exact Except.noConfusion h

theorem processField_good {spec : Str} {acc acc' : Level × SpecMap} {f : Str}
    (h : processField spec acc f = .ok acc') (hcol : ':' ∉ f)
    (hg : ∀ e ∈ acc.2, GoodKey e.1 ∧ GoodVal e.2) (hnd : KeysNodup acc.2)
    (hdv : GoodVal acc.1) :
    (∀ e ∈ acc'.2, GoodKey e.1 ∧ GoodVal e.2) ∧ KeysNodup acc'.2
      ∧ GoodVal acc'.1 := by
  cases hsp : splitOn '=' f with
  | nil => exact absurd hsp (splitOn_ne_nil '=' f)
  | cons a bs =>
    cases bs with
    | nil =>
      rw [processField_ok_one hsp h]
      exact ⟨hg, hnd, NameToLevel_goodVal f⟩
    | cons b cs =>
      cases cs with
      | nil =>
        have h2 := processField_ok_two hsp h
        have hamem : a ∈ splitOn '=' f := by
          rw [hsp]
          exact List.mem_cons_self _ _
        have hsep : ∀ lg ∈ splitOn ',' a, ':' ∉ lg ∧ ',' ∉ lg ∧ '=' ∉ lg := by
          intro lg hlg
          have hsub : ∀ x ∈ lg, x ∈ a := mem_splitOn_subset hlg
          have hsub2 : ∀ x ∈ a, x ∈ f := mem_splitOn_subset hamem
          exact ⟨fun hc => hcol (hsub2 _ (hsub _ hc)),
            mem_splitOn_not_sep hlg,
            fun hc => mem_splitOn_not_sep hamem (hsub _ hc)⟩
        have hres := processLoggers_good (splitOn ',' a) acc.2 acc'.2 h2.2 hg hnd
          (NameToLevel_goodVal b) hsep
        exact ⟨hres.1, hres.2, h2.1 ▸ hdv⟩
      | cons c ds =>
        rw [processField_eq_more hsp] at h
        exact Except.noConfusion h

theorem processFields_good {spec : Str} :
    ∀ (fields : List Str) (acc : Level × SpecMap) (d : Level) (sp : SpecMap),
      processFields spec acc fields = .ok (d, sp) →
      (∀ f ∈ fields, ':' ∉ f) →
      (∀ e ∈ acc.2, GoodKey e.1 ∧ GoodVal e.2) → KeysNodup acc.2 →
      GoodVal acc.1 →
      (∀ e ∈ sp, GoodKey e.1 ∧ GoodVal e.2) ∧ KeysNodup sp ∧ GoodVal d := by
  intro fields
  induction fields with
  | nil =>
    intro acc d sp h _ hg hnd hdv
    replace h : (Except.ok acc : Except SpecErr (Level × SpecMap))
        = .ok (d, sp) := h
    injection h with h
    rw [h] at hg hnd hdv
    exact ⟨hg, hnd, hdv⟩
  | cons f rest ih =>
    intro acc d sp h hcol hg hnd hdv
    simp only [processFields] at h
    cases hpf : processField spec acc f with
    | error e =>
      rw [hpf] at h
      exact Except.noConfusion h
    | ok acc' =>
      rw [hpf] at h
      replace h : processFields spec acc' rest = .ok (d, sp) := h
      have hstep := processField_good hpf (hcol f (List.mem_cons_self _ _))
        hg hnd hdv
      exact ih acc' d sp h (fun g hgm => hcol g (List.mem_cons_of_mem _ hgm))
        hstep.1 hstep.2.1 hstep.2.2

theorem parseSpec_good {s : Str} {d : Level} {sp : SpecMap}
    (h : parseSpec s = .ok (d, sp)) :
    GoodVal d ∧ KeysNodup sp ∧ ∀ e ∈ sp, GoodKey e.1 ∧ GoodVal e.2 := by
  unfold parseSpec at h
  have hres := processFields_good (splitOn ':' s) (Level.info, []) d sp h
    (fun f hf => mem_splitOn_not_sep hf) (by simp) keysNodup_nil
    (by unfold GoodVal; decide)
  exact ⟨hres.2.2, hres.2.1, hres.1⟩

theorem splitOn_renderField {e : Str × Level} (hk : GoodKey e.1) :
    splitOn '=' (renderField e) = [e.1, e.2.toName] := by
  unfold renderField
  rw [splitOn_append_sep hk.2.2.2.1,
    splitOn_of_not_mem (eq_not_mem_toName e.2)]

theorem colon_not_mem_renderField {e : Str × Level} (hk : GoodKey e.1) :
    ':' ∉ renderField e := by
  unfold renderField
  intro hc
  rcases List.mem_append.mp hc with h | h
  · exact hk.2.1 h
  · rcases List.mem_cons.mp h with h | h
    · exact absurd h (by decide)
    · exact colon_not_mem_toName e.2 h

theorem processField_render {spec : Str} {acc : Level × SpecMap}
    {e : Str × Level} (hk : GoodKey e.1) (hv : GoodVal e.2) :
    processField spec acc (renderField e)
      = .ok (acc.1, insertA e.1 e.2 acc.2) := by
  rw [processField_eq_two (splitOn_renderField hk)]
  rw [if_neg hk.1]
  rw [if_neg (fun hc => by rw [hv.1] at hc; cases hc.2)]
  rw [show splitOn ',' e.1 = [e.1] from splitOn_of_not_mem hk.2.2.1]
  rw [show processLoggers spec (NameToLevel e.2.toName) acc.2 [e.1]
      = .ok (insertA e.1 (NameToLevel e.2.toName) acc.2) from by
    simp [processLoggers, hk.2.2.2.2]]
  rw [hv.2]

theorem fieldAssigns_render {e : Str × Level} (hk : GoodKey e.1)
    (hv : GoodVal e.2) : fieldAssigns (renderField e) = [e] := by
  rw [fieldAssigns_eq_two (splitOn_renderField hk)]
  rw [show splitOn ',' e.1 = [e.1] from splitOn_of_not_mem hk.2.2.1]
  simp [hv.2]

theorem processFields_renders_ok {spec : Str} :
    ∀ (fields : List Str) (acc : Level × SpecMap),
      (∀ f ∈ fields, ∃ e : Str × Level,
        GoodKey e.1 ∧ GoodVal e.2 ∧ f = renderField e) →
      ∃ sp2, processFields spec acc fields = .ok (acc.1, sp2) := by
  intro fields
  induction fields with
  | nil => exact fun acc _ => ⟨acc.2, rfl⟩
  | cons f rest ih =>
    intro acc hall
    obtain ⟨e, hk, hv, hf⟩ := hall f (List.mem_cons_self _ _)
    subst hf
    rw [show processFields spec acc (renderField e :: rest)
        = processFields spec (acc.1, insertA e.1 e.2 acc.2) rest from by
      simp [processFields, processField_render hk hv]]
    obtain ⟨sp2, hsp2⟩ := ih (acc.1, insertA e.1 e.2 acc.2)
      (fun g hgm => hall g (List.mem_cons_of_mem _ hgm))
    exact ⟨sp2, hsp2⟩

theorem parseSpec_spec {m : ModuleLevels}
    (hd : GoodVal m.defaultLevel) (hnd : KeysNodup m.specs)
    (hg : ∀ e ∈ m.specs, GoodKey e.1 ∧ GoodVal e.2) :
    ∃ sp', parseSpec m.Spec = .ok (m.defaultLevel, sp')
      ∧ ∀ k, lookupA sp' k = lookupA m.specs k := by
  have hmemfields : ∀ f ∈ sortStrs (m.specs.map renderField),
      ∃ e ∈ m.specs, f = renderField e := by
    intro f hf
    have hmem : f ∈ m.specs.map renderField := (sortStrs_perm _).mem_iff.mp hf
    rcases List.mem_map.mp hmem with ⟨e, he, hfe⟩
    exact ⟨e, he, hfe.symm⟩
  have hsplit : splitOn ':' m.Spec
      = sortStrs (m.specs.map renderField) ++ [m.defaultLevel.toName] := by
    unfold ModuleLevels.Spec
    apply splitOn_joinSep
    · intro p hp
      rcases List.mem_append.mp hp with h1 | h1
      · obtain ⟨e, he, hfe⟩ := hmemfields p h1
        rw [hfe]
        exact colon_not_mem_renderField (hg e he).1
      · rw [List.mem_singleton.mp h1]
        exact colon_not_mem_toName _
    · simp
  have hren : ∀ f ∈ sortStrs (m.specs.map renderField), ∃ e : Str × Level,
      GoodKey e.1 ∧ GoodVal e.2 ∧ f = renderField e := by
    intro f hf
    obtain ⟨e, he, hfe⟩ := hmemfields f hf
    exact ⟨e, (hg e he).1, (hg e he).2, hfe⟩
  obtain ⟨sp2, hsp2⟩ := processFields_renders_ok
    (sortStrs (m.specs.map renderField)) (Level.info, []) hren
  have hfinal : processFields m.Spec (Level.info, sp2) [m.defaultLevel.toName]
      = .ok (m.defaultLevel, sp2) := by
    have hone : splitOn '=' m.defaultLevel.toName = [m.defaultLevel.toName] :=
      splitOn_of_not_mem (eq_not_mem_toName _)
    simp only [processFields]
    rw [processField_eq_one hone]
    rw [if_neg (fun hc => by rw [hd.1] at hc; cases hc.2)]
    rw [hd.2]
  have hok : parseSpec m.Spec = .ok (m.defaultLevel, sp2) := by
    unfold parseSpec
    rw [hsplit, processFields_append, hsp2]
    exact hfinal
  refine ⟨sp2, hok, ?_⟩
  intro k
  have hlk := processFields_lookup
    (sortStrs (m.specs.map renderField) ++ [m.defaultLevel.toName])
    (Level.info, []) m.defaultLevel sp2 (by rw [← hsplit]; exact hok) k
  have hassign : (((sortStrs (m.specs.map renderField)
        ++ [m.defaultLevel.toName]).map fieldAssigns)).flatten
      = ((sortStrs (m.specs.map renderField)).map fieldAssigns).flatten := by
    rw [List.map_append, List.flatten_append]
    simp [fieldAssigns_eq_one (splitOn_of_not_mem (eq_not_mem_toName
      m.defaultLevel))]
  have hperm : (((sortStrs (m.specs.map renderField)).map
      fieldAssigns).flatten).Perm m.specs := by
    have h1 : ((sortStrs (m.specs.map renderField)).map fieldAssigns).Perm
        ((m.specs.map renderField).map fieldAssigns) :=
      (sortStrs_perm _).map fieldAssigns
    have h2 : (m.specs.map renderField).map fieldAssigns
        = m.specs.map (fun e => [e]) := by
      rw [List.map_map]
      exact List.map_congr_left (fun e he =>
        fieldAssigns_render (hg e he).1 (hg e he).2)
    have h3 := h1.flatten
    rw [h2, flatten_map_singleton] at h3
    exact h3
  have hlast : lastAssign (((sortStrs (m.specs.map renderField)).map
      fieldAssigns).flatten) k = lookupA m.specs k := by
    unfold lastAssign
    have hpr : ((((sortStrs (m.specs.map renderField)).map
        fieldAssigns).flatten).reverse).Perm m.specs :=
      (List.reverse_perm _).trans hperm
    exact (lookupA_perm_nodup hnd hpr.symm k).symm
  rw [hlk, hassign, hlast]
  cases lookupA m.specs k <;> simp [lookupA]

/-- C5: Round-trip — after any successful `ActivateSpec`, activating the
serialized form `Spec()` succeeds, and the resulting engine resolves every
logger name to the same level as before. -/
theorem c5_round_trip :
    ∀ (m m' : ModuleLevels) (s : Str), m.ActivateSpec s = (none, m') →
      (m'.ActivateSpec m'.Spec).1 = none
      ∧ ∀ name, (ModuleLevels.level (m'.ActivateSpec m'.Spec).2 name).1
          = (m'.level name).1 := by
  intro m m' s h
  have hinv : ∃ d sp, parseSpec s = .ok (d, sp) ∧ m' = ⟨d, [], sp⟩ := by
    unfold ModuleLevels.ActivateSpec at h
    revert h
    cases hp : parseSpec s with
    | error e =>
      intro h
      injection h with h1 h2
      exact absurd h1 (by simp)
    | ok ds =>
      obtain ⟨d, sp⟩ := ds
      intro h
      replace h : ((none : Option SpecErr), (⟨d, [], sp⟩ : ModuleLevels))
          = (none, m') := h
      injection h with h1 h2
      exact ⟨d, sp, rfl, h2.symm⟩
  obtain ⟨d, sp, hp, hm'⟩ := hinv
  subst hm'
  have hgood := parseSpec_good hp
  obtain ⟨sp', hps, hlk⟩ :=
    @parseSpec_spec ⟨d, [], sp⟩ hgood.1 hgood.2.1 hgood.2.2
  have hact : (ModuleLevels.ActivateSpec ⟨d, [], sp⟩
      (ModuleLevels.Spec ⟨d, [], sp⟩))
      = (none, (⟨d, [], sp'⟩ : ModuleLevels)) := by
    unfold ModuleLevels.ActivateSpec
    rw [hps]
  rw [hact]
  refine ⟨rfl, fun name => ?_⟩
  show (ModuleLevels.level ⟨d, [], sp'⟩ name).1
      = (ModuleLevels.level ⟨d, [], sp⟩ name).1
  unfold ModuleLevels.level ModuleLevels.cachedLevel
  show calculateLevel sp' d name = calculateLevel sp d name
  unfold calculateLevel
  exact calcLoop_congr hlk d _ _

theorem c5_witness :
    ((freshModuleLevels.ActivateSpec (("a.b=debug:WARN").toList)).2.ActivateSpec
      ((freshModuleLevels.ActivateSpec
        (("a.b=debug:WARN").toList)).2.Spec)).1 = none
    ∧ (ModuleLevels.level
        ((freshModuleLevels.ActivateSpec
          (("a.b=debug:WARN").toList)).2.ActivateSpec
          ((freshModuleLevels.ActivateSpec
            (("a.b=debug:WARN").toList)).2.Spec)).2
        (("a.b.c").toList)).1
      = (ModuleLevels.level
          (freshModuleLevels.ActivateSpec (("a.b=debug:WARN").toList)).2
          (("a.b.c").toList)).1 := by
  have h := c5_round_trip freshModuleLevels
    (freshModuleLevels.ActivateSpec (("a.b=debug:WARN").toList)).2
    (("a.b=debug:WARN").toList) (by rfl)
  exact ⟨h.1, h.2 (("a.b.c").toList)⟩
